import Mathlib

/-!
Shallow embedding of `onmt/modules/Transformer.py` (the Transformer decoder stack,
decoder layer, decoder state, and the module-level name environment).

Conventions of the embedding:
* floating-point scalars are modelled as rationals (`ℚ`);
* a tensor of shape `(a, b, c)` is a list of `a` lists of `b` lists of `c` scalars;
* dropout layers are modelled in evaluation mode (the identity map), matching the
  "dropout disabled" proviso of the properties under study;
* external collaborators of the file (the multi-head attention kernel, layer
  normalization, the feed-forward sublayer, the embeddings provider and
  `get_local_mask`) live in sibling modules that are not part of the sources under
  study; they are modelled from the spec as opaque-parameterised functions, see the
  doc comment on each;
* the softmax saturation of a `-1e9` additive attention bias (whose weight
  underflows to exactly `0.0` in IEEE arithmetic) is modelled exactly: a key
  position whose bias entry is nonzero receives weight `0`.
-/

/-- Channel vector: the innermost dimension of an activation tensor. -/
abbrev Vec := List ℚ

/-- One example's activations: `(length, channels)`. -/
abbrev SeqT := List Vec

/-- A 2-D scalar slice, e.g. one example's attention-bias matrix. -/
abbrev Mat := List (List ℚ)

/-- Transpose of the two leading dimensions of a (rectangular) tensor, mirroring
`Tensor.transpose(0, 1).contiguous()`. -/
def transpose01 {α : Type} [Inhabited α] (x : List (List α)) : List (List α) :=
  (List.range (x.headD []).length).map fun j => x.map fun r => r.getD j default

/-- Second dimension of a (rectangular) tensor, as read off by `t.size()`. -/
def dim1 {α : Type} (x : List (List α)) : ℕ := (x.headD []).length

/-- Word id of a token: the feature slice `[:, :, 0]` keeps the first feature. -/
def wordId (tok : List ℕ) : ℕ := tok.headD 0

/-- One entry of `words.data.eq(padding_idx).float()`. -/
def padFlag (padding_idx w : ℕ) : ℚ := if w = padding_idx then 1 else 0

/-- Map with the absolute position index, starting at `i`. -/
def posMap {α β : Type} (f : ℕ → α → β) : ℕ → List α → List β
  | _, [] => []
  | i, a :: as => f i a :: posMap f (i + 1) as

/-- Modelled from the spec: the external attention primitive
`onmt.modules.attention.MultiheadAttention` ("(query, key, bias, head-count) →
(context, weights)").  The per-head projections and the raw score kernel are
collapsed into an abstract logit function `score` and an abstract value map
`value` into `d` output channels; `E` abstracts the exponential used by softmax. -/
structure MultiheadAttention where
  d : ℕ
  score : Vec → Vec → ℚ
  value : Vec → Vec
  E : ℚ → ℚ

/-- Softmax normalizer over the unmasked key positions; a key whose additive-bias
entry is nonzero (the `-1e9` saturation) contributes nothing. -/
def mZ (A : MultiheadAttention) (q : Vec) (keys : List Vec) (brow : List ℚ) : ℚ :=
  ((List.range keys.length).map fun k =>
    if brow.getD k 0 = 0 then A.E (A.score q (keys.getD k [])) else 0).sum

/-- Post-softmax attention weight on key `k`: `0` on saturated (masked) positions. -/
def mWgt (A : MultiheadAttention) (q : Vec) (keys : List Vec) (brow : List ℚ)
    (k : ℕ) : ℚ :=
  if brow.getD k 0 = 0 then A.E (A.score q (keys.getD k [])) / mZ A q keys brow else 0

/-- Context vector for one query: the weight-averaged value vectors. -/
def mCtx (A : MultiheadAttention) (q : Vec) (keys : List Vec) (brow : List ℚ) : Vec :=
  (List.range A.d).map fun i =>
    ((List.range keys.length).map fun k =>
      mWgt A q keys brow k * (A.value (keys.getD k [])).getD i 0).sum

/-- Bias row seen by query `qi`, with the broadcasting of a `(·, 1, len)` bias
over all query positions; `none` (no bias) is the all-zero row. -/
def rowFor (bias : Option Mat) (qi : ℕ) : List ℚ :=
  match bias with
  | none => []
  | some rows => if rows.length = 1 then rows.headD [] else rows.getD qi []

/-- Attention contexts of one example: every query attends over `keys`. -/
def attnSeq (A : MultiheadAttention) (qs keys : SeqT) (bias : Option Mat) : SeqT :=
  posMap (fun qi q => mCtx A q keys (rowFor bias qi)) 0 qs

/-- Attention weights of one example, one row per query. -/
def attnWSeq (A : MultiheadAttention) (qs keys : SeqT) (bias : Option Mat) : Mat :=
  posMap (fun qi q => (List.range keys.length).map (mWgt A q keys (rowFor bias qi))) 0 qs

/-- Modelled from the spec: batched forward of the external attention module.
Each batch example is processed independently; the returned weight tensor is
length-major, so that the decoder stack's `transpose(0, 1)` on it yields the
batch-first layout the spec describes. `num_heads` is carried but the head
mechanics are internal to the external module (folded into `score`/`value`). -/
def MultiheadAttention.forward (A : MultiheadAttention) (x memory : List SeqT)
    (num_heads : ℕ) (bias : Option (List Mat)) : List SeqT × List Mat :=
  let bl : List (Option Mat) :=
    match bias with
    | none => List.replicate x.length none
    | some bs => bs.map some
  let y := (x.zip (memory.zip bl)).map fun p => attnSeq A p.1 p.2.1 p.2.2
  let w := (x.zip (memory.zip bl)).map fun p => attnWSeq A p.1 p.2.1 p.2.2
  (y, transpose01 w)

/-- Parameters of one decoder layer (`DecoderLayer.__init__`, lines 82-103).
The three `LayerNorm` instances and the `ffn_layer` are external collaborators,
modelled from the spec as abstract per-position maps; the three dropout modules
are in evaluation mode and hence omitted (identity). -/
structure DecoderLayer where
  num_heads : ℕ
  ma_l1 : MultiheadAttention
  ma_l2 : MultiheadAttention
  ma_l1_prenorm : Vec → Vec
  ma_l2_prenorm : Vec → Vec
  ffn_prenorm : Vec → Vec
  ffn : Vec → Vec

/-- Elementwise sum of two activation tensors (a residual add). -/
def addB (y x : List SeqT) : List SeqT :=
  List.zipWith (List.zipWith (List.zipWith (· + ·))) y x

/-- Per-position application of a channel map (layer norm / ffn are positionwise). -/
def normB (f : Vec → Vec) (x : List SeqT) : List SeqT := x.map (·.map f)

/-- `DecoderLayer.forward` (lines 105-123): self-attention with optional
incremental cache (`previous_input` concatenated with the normalized input along
the sequence axis, the self-attention bias then dropped), cross-attention over
the encoder output, feed-forward, each with a residual add; dropouts in
evaluation mode.  Returns `(ans, attn, all_inputs)`. -/
def DecoderLayer.forward (L : DecoderLayer) (x encoder_output : List SeqT)
    (self_attention_bias encoder_decoder_bias : Option (List Mat))
    (previous_input : Option (List SeqT)) : List SeqT × List Mat × List SeqT :=
  let norm_x := normB L.ma_l1_prenorm x
  let ai_sb : List SeqT × Option (List Mat) :=
    match previous_input with
    | some pv => (List.zipWith (· ++ ·) pv norm_x, none)
    | none => (norm_x, self_attention_bias)
  let y1 := (L.ma_l1.forward norm_x ai_sb.1 L.num_heads ai_sb.2).1
  let x1 := addB y1 x
  let ya := L.ma_l2.forward (normB L.ma_l2_prenorm x1) encoder_output L.num_heads
      encoder_decoder_bias
  let x2 := addB ya.1 x1
  let y3 := normB L.ffn (normB L.ffn_prenorm x2)
  (addB y3 x2, ya.2, ai_sb.1)

/-- The decoder stack's layer loop (lines 237-247): the `i`-th layer receives the
`i`-th cached previous input (when a cache is present), `attn` keeps the last
layer's cross-attention weights, and every layer's `all_input` is collected in
order. -/
def runStack (encoder_output : List SeqT) (self_bias enc_bias : Option (List Mat)) :
    List DecoderLayer → Option (List (List SeqT)) → List SeqT →
    List SeqT × List Mat × List (List SeqT)
  | [], _, out => (out, [], [])
  | L :: Ls, prevs, out =>
    let r := L.forward out encoder_output self_bias enc_bias (prevs.map (·.headD []))
    let rest := runStack encoder_output self_bias enc_bias Ls (prevs.map (List.drop 1)) r.1
    (rest.1, if Ls.isEmpty then r.2.1 else rest.2.1, r.2.2 :: rest.2.2)

/-- `TransformerDecoderState` (lines 267-290): source reference, previously
consumed target tokens, and the stacked per-layer cached inputs. -/
structure TransformerDecoderState where
  src : List (List (List ℕ))
  previous_input : Option (List (List (List ℕ)))
  previous_layer_inputs : Option (List (List SeqT))
deriving DecidableEq

/-- The dynamic type of the `state` argument of `TransformerDecoder.forward`:
either the designated state variant or some other `DecoderState`. -/
inductive DecState where
  | transformer (s : TransformerDecoderState)
  | other

/-- `update_state` (lines 285-290): builds a fresh state from the current
source reference and the new caches. -/
def TransformerDecoderState.update_state (s : TransformerDecoderState)
    (input : List (List (List ℕ))) (previous_layer_inputs : List (List SeqT)) :
    TransformerDecoderState :=
  ⟨s.src, some input, some previous_layer_inputs⟩

/-- `repeat_beam_size_times` (lines 292-295): `src.data.repeat(1, beam_size, 1)`
tiles the batch dimension `beam_size` times. -/
def TransformerDecoderState.repeat_beam_size_times (s : TransformerDecoderState)
    (beam_size : ℕ) : TransformerDecoderState :=
  { s with src := s.src.map fun row => (List.replicate beam_size row).flatten }

/-- `TransformerDecoder` (lines 166-189): the layer stack, the final layer norm
(external, abstract map), the copy flag, and the embeddings provider.  The
embeddings provider is modelled from the spec ("token-id tensor → embedding
tensor; exposes a configured padding-token index") as a per-token, per-absolute-
position vector, which is what makes the full-prepend-then-slice optimization of
`forward` sound. -/
structure TransformerDecoder where
  layer_stack : List DecoderLayer
  layer_norm : Vec → Vec
  _copy : Bool
  embed : List ℕ → ℕ → Vec
  word_padding_idx : ℕ

/-- The attention maps returned by the decoder stack: `attns["std"]` and the
optional `attns["copy"]`. -/
structure Attns where
  std : List Mat
  copy : Option (List Mat)
deriving DecidableEq

/-- The fail-fast assertion failures of `TransformerDecoder.forward`:
the `isinstance` assert and the `aeq` shape checks (`aeq` lives in `onmt.Utils`,
modelled from the spec as an equality assertion). -/
inductive DecodeErr where
  | notTransformerState
  | batchMismatch
  | lengthMismatch
deriving DecidableEq

/-- The `length × length` local/causal mask matrix: entry `(q, k)` is `1` when
key position `k` lies strictly in the future of query position `q`. -/
def localMat (len : ℕ) : Mat :=
  (List.range len).map fun q => (List.range len).map fun k =>
    if q < k then (1 : ℚ) else 0

/-- Modelled from the spec: `attention.get_local_mask(length)`, the
`[1, length, length]` local/causal mask marking every key position strictly in
the future of its query position. -/
def getLocalMask (len : ℕ) : List Mat := [localMat len]

/-- `self.embeddings(tgt)` on a `(len, batch, nfeat)` token tensor. -/
def embedTokens (D : TransformerDecoder) (t : List (List (List ℕ))) : List SeqT :=
  posMap (fun p row => row.map fun tok => D.embed tok p) 0 t

/-- `src[:, :, 0].transpose(0, 1)` (line 202). -/
def srcWords (s : TransformerDecoderState) : List (List ℕ) :=
  transpose01 (s.src.map (·.map wordId))

/-- `tgt[:, :, 0].transpose(0, 1)` (line 203). -/
def tgtWordsOf (tgt : List (List (List ℕ))) : List (List ℕ) :=
  transpose01 (tgt.map (·.map wordId))

/-- Line 209-210: the previously consumed tokens are prepended to the new ones. -/
def catTgt (s : TransformerDecoderState) (tgt : List (List (List ℕ))) :
    List (List (List ℕ)) :=
  match s.previous_input with
  | some p => p ++ tgt
  | none => tgt

/-- Lines 220-222: the full (prepended) token sequence is embedded, then the
rows of the already-processed prefix are sliced away. -/
def embSliced (D : TransformerDecoder) (tgt : List (List (List ℕ)))
    (s : TransformerDecoderState) : List SeqT :=
  let emb0 := embedTokens D (catTgt s tgt)
  match s.previous_input with
  | some p => emb0.drop p.length
  | none => emb0

/-- Lines 229, 232: the cross-attention padding bias
`torch.unsqueeze(src_pad_mask * -1e9, 1)` of shape `(batch, 1, src_len)`. -/
def encDecBias (padding_idx : ℕ) (src_words : List (List ℕ)) : List Mat :=
  (src_words.map (·.map (padFlag padding_idx))).map fun r =>
    [r.map (· * (-(10 ^ 9 : ℚ)))]

/-- Lines 230-235: the decoder self-attention bias — target padding mask
repeated over queries, plus the local/causal mask, or-combined by
`torch.gt(·, 0)` and scaled by `-1e9`. -/
def decoderBias (padding_idx : ℕ) (tgt_words : List (List ℕ)) : List Mat :=
  let tgt_len := dim1 tgt_words
  let tgt_batch := tgt_words.length
  let tgt_pad_mask0 := tgt_words.map fun r => [r.map (padFlag padding_idx)]
  let tgt_pad_mask := tgt_pad_mask0.map fun rows => (List.replicate tgt_len rows).flatten
  let dlm := (List.replicate tgt_batch (getLocalMask tgt_len)).flatten
  List.zipWith (fun m l =>
    List.zipWith (fun mr lr =>
      List.zipWith (fun a b =>
        (if 0 < a + b then (1 : ℚ) else 0) * (-(10 ^ 9 : ℚ))) mr lr) m l)
    tgt_pad_mask dlm

/-- Lines 225-247 of `TransformerDecoder.forward`: the batch-first embedded
output, the batch-first memory bank, the two bias tensors, and the layer loop. -/
def coreRun (D : TransformerDecoder) (tgt : List (List (List ℕ)))
    (memory_bank : List SeqT) (s : TransformerDecoderState) :
    List SeqT × List Mat × List (List SeqT) :=
  runStack (transpose01 memory_bank)
    (some (decoderBias D.word_padding_idx (tgtWordsOf tgt)))
    (some (encDecBias D.word_padding_idx (srcWords s)))
    D.layer_stack s.previous_layer_inputs (transpose01 (embSliced D tgt s))

/-- Lines 248-251: final layer norm, then transpose back to length-first. -/
def fwdOutputs (D : TransformerDecoder) (tgt : List (List (List ℕ)))
    (memory_bank : List SeqT) (s : TransformerDecoderState) : List SeqT :=
  transpose01 (normB D.layer_norm (coreRun D tgt memory_bank s).1)

/-- Line 252: the last layer's cross-attention weights, transposed. -/
def fwdAttn (D : TransformerDecoder) (tgt : List (List (List ℕ)))
    (memory_bank : List SeqT) (s : TransformerDecoderState) : List Mat :=
  transpose01 (coreRun D tgt memory_bank s).2.1

/-- Line 259: the new state carries the full token history and the stacked
per-layer caches. -/
def fwdState (D : TransformerDecoder) (tgt : List (List (List ℕ)))
    (memory_bank : List SeqT) (s : TransformerDecoderState) :
    TransformerDecoderState :=
  s.update_state (catTgt s tgt) (coreRun D tgt memory_bank s).2.2

/-- `TransformerDecoder.forward` (lines 191-260): the isinstance assert, the
`aeq` shape checks (whose dimensions are read off exactly as lines 197-207 do),
then the prepend-and-slice embedding, the bias construction, the layer loop, the
final layer norm, the attention maps and the state update, via the stage
functions above. -/
def TransformerDecoder.forward (D : TransformerDecoder) (tgt : List (List (List ℕ)))
    (memory_bank : List SeqT) (state : DecState) :
    Except DecodeErr (List SeqT × TransformerDecoderState × Attns) :=
  match state with
  | .other => .error .notTransformerState
  | .transformer s =>
    if dim1 tgt ≠ dim1 memory_bank then .error .batchMismatch else
    if ¬ ((tgtWordsOf tgt).length = dim1 memory_bank ∧
          dim1 memory_bank = (srcWords s).length) then .error .batchMismatch else
    if memory_bank.length ≠ dim1 (srcWords s) then .error .lengthMismatch else
    .ok (fwdOutputs D tgt memory_bank s, fwdState D tgt memory_bank s,
      ⟨fwdAttn D tgt memory_bank s,
        if D._copy then some (fwdAttn D tgt memory_bank s) else none⟩)

/-- `init_decoder_state` (lines 262-263). -/
def TransformerDecoder.init_decoder_state (D : TransformerDecoder)
    (src : List (List (List ℕ))) (memory_bank : List SeqT) (enc_hidden : Unit) :
    TransformerDecoderState :=
  ⟨src, none, none⟩

/-- Feeding the decoder one target step at a time while threading the returned
state, starting from the supplied state; `none` as soon as a call fails. -/
def incrRun (D : TransformerDecoder) (memory_bank : List SeqT) :
    List (List ℕ) → TransformerDecoderState → Option (List (List SeqT))
  | [], _ => some []
  | tok :: rest, s =>
    match TransformerDecoder.forward D [[tok]] memory_bank (.transformer s) with
    | .error _ => none
    | .ok (out, s', _) => (incrRun D memory_bank rest s').map (out :: ·)

/-- Names bound at the top level of `Transformer.py`: the `from ... import`
statements of lines 6-10 bind only the imported attribute (`attention`,
`layers`, `EncoderBase`, `DecoderState`, `aeq`), lines 12-15 bind `torch`,
`nn`, `Variable` and `F`, and the five class statements bind their class
names.  In particular no statement of the file binds the bare name `onmt`. -/
def moduleTopLevelNames : List String :=
  ["attention", "layers", "EncoderBase", "DecoderState", "aeq",
   "torch", "nn", "Variable", "F",
   "PositionwiseFeedForward", "EncoderLayer", "DecoderLayer",
   "TransformerEncoder", "TransformerDecoder", "TransformerDecoderState"]

/-- Outcome of running a body that resolves module-global names. -/
inductive PyResult where
  | ok
  | nameError (n : String)
deriving DecidableEq

/-- Resolve, in order, the global-name lookups a body performs: the first name
missing from the environment raises `NameError` for that name. -/
def resolveAll (env : List String) : List String → PyResult
  | [] => .ok
  | n :: ns => if n ∈ env then resolveAll env ns else .nameError n

/-- Global names read by `PositionwiseFeedForward.__init__` (lines 26-34) in
evaluation order: `nn.Linear` twice, then `onmt.modules.LayerNorm` (line 30),
then `nn.Dropout`, `nn.ReLU`, `nn.Dropout`. -/
def pwffInitGlobals : List String := ["nn", "nn", "onmt", "nn", "nn", "nn"]

/-- Name resolution performed by constructing a `PositionwiseFeedForward`. -/
def PositionwiseFeedForward.init (env : List String) : PyResult :=
  resolveAll env pwffInitGlobals

/-- Global names read by `TransformerDecoder.__init__` (lines 170-189) in
evaluation order: `nn.ModuleList`, `DecoderLayer` (list comprehension,
lines 179-180), then — only when `copy_attn` is true —
`onmt.modules.GlobalAttention` (line 186), and finally `layers.LayerNorm`. -/
def transformerDecoderInitGlobals (copy_attn : Bool) : List String :=
  ["nn", "DecoderLayer"] ++ (if copy_attn then ["onmt"] else []) ++ ["layers"]

/-- Name resolution performed by constructing a `TransformerDecoder`. -/
def TransformerDecoder.init (env : List String) (copy_attn : Bool) : PyResult :=
  resolveAll env (transformerDecoderInitGlobals copy_attn)

/-- Module-global names referenced anywhere in the body of each of the other
top-level definitions of the file (everything except `PositionwiseFeedForward`
itself): `EncoderLayer` (lines 42-78), `DecoderLayer` (lines 80-123),
`TransformerEncoder` (lines 125-164), `TransformerDecoder` (lines 166-263) and
`TransformerDecoderState` (lines 267-295). -/
def classGlobalRefs : List (String × List String) :=
  [("EncoderLayer", ["nn", "attention", "layers"]),
   ("DecoderLayer", ["EncoderBase", "nn", "attention", "layers", "torch"]),
   ("TransformerEncoder",
     ["EncoderBase", "nn", "EncoderLayer", "layers", "Variable", "torch", "aeq"]),
   ("TransformerDecoder",
     ["nn", "DecoderLayer", "onmt", "layers", "TransformerDecoderState",
      "torch", "aeq", "attention", "Variable"]),
   ("TransformerDecoderState",
     ["DecoderState", "TransformerDecoderState", "Variable"])]

/-- A concrete 1-channel attention instance for the concrete-input theorems:
constant logits, identity value map, and `E` constantly 1 (so unmasked softmax
weights are uniform). -/
def A0 : MultiheadAttention := ⟨1, fun _ _ => 0, fun v => v, fun _ => 1⟩

/-- A concrete decoder layer built on `A0`, with identity normalization and
feed-forward maps. -/
def L0 : DecoderLayer := ⟨8, A0, A0, id, id, id, id⟩

/-- A concrete one-layer decoder: word-id embeddings, padding index 0. -/
def D0 : TransformerDecoder :=
  ⟨[L0], id, false, fun tok _ => [(wordId tok : ℚ)], 0⟩

/-- `D0` with the copy flag raised (as set by a successful `__init__` would). -/
def D0c : TransformerDecoder := { D0 with _copy := true }

theorem posMap_length {α β : Type} (f : ℕ → α → β) (i : ℕ) (l : List α) :
    (posMap f i l).length = l.length := by
  induction l generalizing i with
  | nil => rfl
  | cons a as ih => simp [posMap, ih]

theorem transpose01_length {α : Type} [Inhabited α] (x : List (List α)) :
    (transpose01 x).length = dim1 x := by
  simp [transpose01, dim1]

theorem transpose01_mem_length {α : Type} [Inhabited α] (x : List (List α)) :
    ∀ r ∈ transpose01 x, r.length = x.length := by
  intro r hr
  simp only [transpose01, List.mem_map] at hr
  obtain ⟨j, -, rfl⟩ := hr
  simp

theorem dim1_map_map {α β : Type} (g : α → β) (x : List (List α)) :
    dim1 (x.map (·.map g)) = dim1 x := by
  cases x <;> simp [dim1]

theorem tgtWordsOf_length (tgt : List (List (List ℕ))) :
    (tgtWordsOf tgt).length = dim1 tgt := by
  rw [tgtWordsOf, transpose01_length, dim1_map_map]

theorem srcWords_length (s : TransformerDecoderState) :
    (srcWords s).length = dim1 s.src := by
  rw [srcWords, transpose01_length, dim1_map_map]

theorem dim1_transpose01 {α : Type} [Inhabited α] (x : List (List α))
    (h : 0 < dim1 x) : dim1 (transpose01 x) = x.length := by
  obtain ⟨m, hm⟩ : ∃ m, dim1 x = m + 1 := ⟨dim1 x - 1, (Nat.succ_pred_eq_of_pos h).symm⟩
  unfold transpose01
  rw [show (x.headD []).length = dim1 x from rfl, hm, List.range_succ_eq_map]
  simp [dim1]

theorem transpose01_getD {α : Type} [Inhabited α] (x : List (List α)) (j : ℕ)
    (hj : j < dim1 x) :
    (transpose01 x).getD j [] = x.map (fun r => r.getD j default) := by
  have hj' : j < ((List.range (x.headD []).length).map
      fun j => x.map fun r => r.getD j default).length := by
    simp only [List.length_map, List.length_range]; exact hj
  rw [transpose01, List.getD_eq_getElem _ _ hj']
  simp

theorem transpose01_getD_getD {α : Type} [Inhabited α] (x : List (List α))
    (j i : ℕ) (hj : j < dim1 x) (hi : i < x.length) :
    ((transpose01 x).getD j []).getD i default = (x.getD i []).getD j default := by
  rw [transpose01_getD x j hj, List.getD_eq_getElem _ _ (by simpa using hi),
    List.getElem_map, List.getD_eq_getElem _ _ hi]

theorem flatten_replicate_length {α : Type} (k : ℕ) (row : List α) :
    ((List.replicate k row).flatten).length = k * row.length := by
  induction k with
  | zero => simp
  | succ n ih => simp [List.replicate_succ, ih, Nat.succ_mul, Nat.add_comm]

theorem flatten_replicate_getD {α : Type} (k j b : ℕ) (row : List α) (d : α)
    (hj : j < k) (hb : b < row.length) :
    ((List.replicate k row).flatten).getD (j * row.length + b) d = row.getD b d := by
  induction k generalizing j with
  | zero => omega
  | succ n ih =>
    rw [List.replicate_succ, List.flatten_cons]
    cases j with
    | zero => simpa using List.getD_append row _ d b hb
    | succ m =>
      rw [List.getD_append_right row _ d _ (by nlinarith)]
      have : (m + 1) * row.length + b - row.length = m * row.length + b := by
        rw [Nat.succ_mul]; omega
      rw [this]
      exact ih m (by omega)

theorem forward_ok_inv (D : TransformerDecoder) (tgt : List (List (List ℕ)))
    (mb : List SeqT) (s : TransformerDecoderState)
    (out : List SeqT) (st' : TransformerDecoderState) (ats : Attns)
    (h : D.forward tgt mb (.transformer s) = .ok (out, st', ats)) :
    (dim1 tgt = dim1 mb ∧ (tgtWordsOf tgt).length = dim1 mb ∧
      dim1 mb = (srcWords s).length ∧ mb.length = dim1 (srcWords s)) ∧
    out = fwdOutputs D tgt mb s ∧ st' = fwdState D tgt mb s ∧
    ats = ⟨fwdAttn D tgt mb s,
      if D._copy then some (fwdAttn D tgt mb s) else none⟩ := by
  rw [show D.forward tgt mb (.transformer s) =
      (if dim1 tgt ≠ dim1 mb then .error .batchMismatch else
       if ¬ ((tgtWordsOf tgt).length = dim1 mb ∧
             dim1 mb = (srcWords s).length) then .error .batchMismatch else
       if mb.length ≠ dim1 (srcWords s) then .error .lengthMismatch else
       .ok (fwdOutputs D tgt mb s, fwdState D tgt mb s,
         ⟨fwdAttn D tgt mb s,
           if D._copy then some (fwdAttn D tgt mb s) else none⟩)) from rfl] at h
  by_cases c1 : dim1 tgt ≠ dim1 mb
  · rw [if_pos c1] at h; exact absurd h (by simp)
  · rw [if_neg c1] at h
    by_cases c2 : ¬ ((tgtWordsOf tgt).length = dim1 mb ∧
        dim1 mb = (srcWords s).length)
    · rw [if_pos c2] at h; exact absurd h (by simp)
    · rw [if_neg c2] at h
      by_cases c3 : mb.length ≠ dim1 (srcWords s)
      · rw [if_pos c3] at h; exact absurd h (by simp)
      · rw [if_neg c3] at h
        rw [not_not] at c1 c2 c3
        simp only [Except.ok.injEq, Prod.mk.injEq] at h
        exact ⟨⟨c1, c2.1, c2.2, c3⟩, h.1.symm, h.2.1.symm, h.2.2.symm⟩

theorem forward_transformer_ok (D : TransformerDecoder)
    (tgt : List (List (List ℕ))) (mb : List SeqT) (s : TransformerDecoderState)
    (c1 : dim1 tgt = dim1 mb) (c2 : (tgtWordsOf tgt).length = dim1 mb)
    (c3 : dim1 mb = (srcWords s).length) (c4 : mb.length = dim1 (srcWords s)) :
    D.forward tgt mb (.transformer s) =
      .ok (fwdOutputs D tgt mb s, fwdState D tgt mb s,
        ⟨fwdAttn D tgt mb s,
          if D._copy then some (fwdAttn D tgt mb s) else none⟩) := by
  rw [show D.forward tgt mb (.transformer s) =
      (if dim1 tgt ≠ dim1 mb then .error .batchMismatch else
       if ¬ ((tgtWordsOf tgt).length = dim1 mb ∧
             dim1 mb = (srcWords s).length) then .error .batchMismatch else
       if mb.length ≠ dim1 (srcWords s) then .error .lengthMismatch else
       .ok (fwdOutputs D tgt mb s, fwdState D tgt mb s,
         ⟨fwdAttn D tgt mb s,
           if D._copy then some (fwdAttn D tgt mb s) else none⟩)) from rfl]
  rw [if_neg (by simp [c1]), if_neg (by simp [c2, c3]), if_neg (by simp [c4])]

theorem getD_map_lt {α β : Type} (f : α → β) (l : List α) (i : ℕ) (d : β)
    (d' : α) (h : i < l.length) :
    (l.map f).getD i d = f (l.getD i d') := by
  rw [List.getD_eq_getElem _ _ (by simpa using h), List.getElem_map,
    List.getD_eq_getElem _ _ h]

/-- Shared concrete state for the closed-instance theorems: one source token. -/
def sEx : TransformerDecoderState := ⟨[[[3]]], none, none⟩

/-- Shared concrete target-token tensor: one new token, batch 1. -/
def tEx : List (List (List ℕ)) := [[[1]]]

/-- Shared concrete memory bank: source length 1, batch 1, one channel. -/
def mEx : List SeqT := [[[5]]]

/-- C10: the bare name `onmt` is never bound at the top level of the module, so
constructing a `PositionwiseFeedForward` always raises `NameError` (at the
`onmt.modules.LayerNorm` reference of line 30), and constructing a
`TransformerDecoder` with `copy_attn` true likewise raises `NameError` at the
`onmt.modules.GlobalAttention` reference of line 186 (with `copy_attn` false
every global resolves); moreover no other top-level definition of the file
references `PositionwiseFeedForward`, making it dead code within the file. -/
theorem C10_onmt_never_bound :
    "onmt" ∉ moduleTopLevelNames ∧
    PositionwiseFeedForward.init moduleTopLevelNames = .nameError "onmt" ∧
    TransformerDecoder.init moduleTopLevelNames true = .nameError "onmt" ∧
    TransformerDecoder.init moduleTopLevelNames false = .ok ∧
    ∀ p ∈ classGlobalRefs, "PositionwiseFeedForward" ∉ p.2 := by
  decide

/-- C5: `repeat_beam_size_times k` replaces the state's `src` by a tensor whose
batch dimension is exactly `k` times the original, original example `b`
reappearing at the consistently strided batch positions `j * batch + b` for
`j < k`; every other field of the state is untouched (the mutation hits
exactly the `src` field). -/
theorem C5_repeat_beam_size_times (s : TransformerDecoderState) (k : ℕ)
    (hk : 0 < k) :
    ((s.repeat_beam_size_times k).src.length = s.src.length) ∧
    (∀ l, l < s.src.length →
      ((s.repeat_beam_size_times k).src.getD l []).length =
        k * (s.src.getD l []).length) ∧
    (∀ l j b, l < s.src.length → j < k → b < (s.src.getD l []).length →
      ((s.repeat_beam_size_times k).src.getD l []).getD
          (j * (s.src.getD l []).length + b) [] = (s.src.getD l []).getD b []) ∧
    (s.repeat_beam_size_times k).previous_input = s.previous_input ∧
    (s.repeat_beam_size_times k).previous_layer_inputs =
      s.previous_layer_inputs := by
  refine ⟨by simp [TransformerDecoderState.repeat_beam_size_times], ?_, ?_, rfl, rfl⟩
  · intro l hl
    rw [TransformerDecoderState.repeat_beam_size_times]
    rw [getD_map_lt _ _ _ _ [] hl]
    exact flatten_replicate_length k _
  · intro l j b hl hj hb
    rw [TransformerDecoderState.repeat_beam_size_times]
    rw [getD_map_lt _ _ _ _ [] hl]
    exact flatten_replicate_getD k j b _ [] hj hb

theorem C5_repeat_beam_size_times_witness :
    ((sEx.repeat_beam_size_times 2).src.length = sEx.src.length) ∧
    (∀ l, l < sEx.src.length →
      ((sEx.repeat_beam_size_times 2).src.getD l []).length =
        2 * (sEx.src.getD l []).length) ∧
    (∀ l j b, l < sEx.src.length → j < 2 → b < (sEx.src.getD l []).length →
      ((sEx.repeat_beam_size_times 2).src.getD l []).getD
          (j * (sEx.src.getD l []).length + b) [] = (sEx.src.getD l []).getD b []) ∧
    (sEx.repeat_beam_size_times 2).previous_input = sEx.previous_input ∧
    (sEx.repeat_beam_size_times 2).previous_layer_inputs =
      sEx.previous_layer_inputs :=
  C5_repeat_beam_size_times sEx 2 (by decide)

/-- C6: `update_state` is a pure constructor of a fresh state — the result's
`src` is the receiver's `src`, its `previous_input` is the supplied tokens and
its `previous_layer_inputs` the supplied caches (the receiver, an immutable
value here, is untouched) — and a successful decoder `forward` returns a state
built by `update_state` (a new object) whose `src` is still the old one. -/
theorem C6_update_state_pure (s : TransformerDecoderState)
    (input : List (List (List ℕ))) (caches : List (List SeqT))
    (D : TransformerDecoder) (tgt : List (List (List ℕ))) (mb : List SeqT)
    (out : List SeqT) (st' : TransformerDecoderState) (ats : Attns)
    (h : D.forward tgt mb (.transformer s) = .ok (out, st', ats)) :
    (s.update_state input caches).src = s.src ∧
    (s.update_state input caches).previous_input = some input ∧
    (s.update_state input caches).previous_layer_inputs = some caches ∧
    st'.src = s.src ∧
    ∃ sv, st' = s.update_state (catTgt s tgt) sv := by
  obtain ⟨-, -, hst, -⟩ := forward_ok_inv D tgt mb s out st' ats h
  exact ⟨rfl, rfl, rfl, by rw [hst]; rfl, ⟨_, hst⟩⟩

theorem C6_update_state_pure_witness :
    (sEx.update_state tEx []).src = sEx.src ∧
    (sEx.update_state tEx []).previous_input = some tEx ∧
    (sEx.update_state tEx []).previous_layer_inputs = some [] ∧
    (fwdState D0 tEx mEx sEx).src = sEx.src ∧
    ∃ sv, fwdState D0 tEx mEx sEx = sEx.update_state (catTgt sEx tEx) sv :=
  C6_update_state_pure sEx tEx [] D0 tEx mEx _ _ _
    (forward_transformer_ok D0 tEx mEx sEx (by decide) (by decide) (by decide)
      (by decide))

/-- C2 counterexample: with a `previous_input` supplied, the decoder layer does
NOT ignore/clear the encoder-decoder (cross-attention) bias — masking the
second memory position changes the output, so the bias is still in effect.
(What line 113 clears is the self-attention bias.) -/
theorem C2_counterexample :
    (DecoderLayer.forward L0 [[[1]]] [[[1], [3]]] none
        (some [[[0, -(10 ^ 9 : ℚ)]]]) (some [[[5]]])).1 ≠
    (DecoderLayer.forward L0 [[[1]]] [[[1], [3]]] none none (some [[[5]]])).1 := by
  have h1 : (DecoderLayer.forward L0 [[[1]]] [[[1], [3]]] none
      (some [[[0, -(10 ^ 9 : ℚ)]]]) (some [[[5]]])).1 = [[[10]]] := by
    norm_num [DecoderLayer.forward, MultiheadAttention.forward, attnSeq, attnWSeq,
      posMap, mCtx, mWgt, mZ, rowFor, normB, addB, A0, L0, List.range_succ,
      transpose01]
  have h2 : (DecoderLayer.forward L0 [[[1]]] [[[1], [3]]] none none
      (some [[[5]]])).1 = [[[12]]] := by
    norm_num [DecoderLayer.forward, MultiheadAttention.forward, attnSeq, attnWSeq,
      posMap, mCtx, mWgt, mZ, rowFor, normB, addB, A0, L0, List.range_succ,
      transpose01]
  rw [h1, h2]
  norm_num

/-- C2 (amended): whenever a `previous_input` is provided, the key/value set
for self-attention is the concatenation of the previous inputs with the current
normalized input along the sequence axis, the SELF-attention bias is
ignored/cleared for that call (the result does not depend on it and the
self-attention runs with no bias), the query remains the current normalized
input only, and the encoder-decoder bias is passed to cross-attention
unchanged. -/
theorem C2_prev_input_clears_self_bias (L : DecoderLayer) (x enc : List SeqT)
    (sb sb' eb : Option (List Mat)) (pv : List SeqT) :
    L.forward x enc sb eb (some pv) = L.forward x enc sb' eb (some pv) ∧
    L.forward x enc sb eb (some pv) =
      (let nx := normB L.ma_l1_prenorm x
       let ai := List.zipWith (· ++ ·) pv nx
       let x1 := addB (L.ma_l1.forward nx ai L.num_heads none).1 x
       let x2 := addB
         (L.ma_l2.forward (normB L.ma_l2_prenorm x1) enc L.num_heads eb).1 x1
       (addB (normB L.ffn (normB L.ffn_prenorm x2)) x2,
        (L.ma_l2.forward (normB L.ma_l2_prenorm x1) enc L.num_heads eb).2,
        ai)) :=
  ⟨rfl, rfl⟩

theorem getD_zipWith_lt {α β γ : Type} (f : α → β → γ) (u : List α) (v : List β)
    (i : ℕ) (d : γ) (du : α) (dv : β) (hu : i < u.length) (hv : i < v.length) :
    (List.zipWith f u v).getD i d = f (u.getD i du) (v.getD i dv) := by
  rw [List.getD_eq_getElem _ _ (by simp; omega), List.getElem_zipWith,
    List.getD_eq_getElem _ _ hu, List.getD_eq_getElem _ _ hv]

theorem flatten_replicate_singleton {α : Type} (n : ℕ) (a : α) :
    (List.replicate n [a]).flatten = List.replicate n a := by
  induction n with
  | zero => rfl
  | succ m ih => simp [List.replicate_succ, ih]

theorem getD_replicate_lt {α : Type} (n i : ℕ) (a : α) (d : α) (h : i < n) :
    (List.replicate n a).getD i d = a := by
  rw [List.getD_eq_getElem _ _ (by simpa using h), List.getElem_replicate]

theorem range_getD (n i : ℕ) (h : i < n) : (List.range n).getD i 0 = i := by
  rw [List.getD_eq_getElem _ _ (by simpa using h), List.getElem_range]

theorem tgtWordsOf_dim1 (tgt : List (List (List ℕ))) (h : 0 < dim1 tgt) :
    dim1 (tgtWordsOf tgt) = tgt.length := by
  rw [tgtWordsOf, dim1_transpose01 _ (by rwa [dim1_map_map]), List.length_map]

theorem tgtWordsOf_getD_getD (tgt : List (List (List ℕ))) (b k : ℕ)
    (hrect : ∀ r ∈ tgt, r.length = dim1 tgt)
    (hb : b < dim1 tgt) (hk : k < tgt.length) :
    ((tgtWordsOf tgt).getD b []).getD k 0 = wordId ((tgt.getD k []).getD b []) := by
  have h1 : ((tgtWordsOf tgt).getD b []).getD k 0 =
      (((tgt.map (·.map wordId)).getD k []).getD b 0) := by
    have := transpose01_getD_getD (tgt.map (·.map wordId)) b k
      (by rwa [dim1_map_map]) (by simpa using hk)
    simpa using this
  rw [h1, getD_map_lt _ _ _ _ [] (by simpa using hk),
    getD_map_lt _ _ _ _ [] ?_]
  have hmem : tgt.getD k [] ∈ tgt := by
    rw [List.getD_eq_getElem _ _ hk]; exact List.getElem_mem hk
  rw [hrect _ hmem]; exact hb

theorem tgtWordsOf_row_length (tgt : List (List (List ℕ))) (b : ℕ)
    (hb : b < dim1 tgt) :
    ((tgtWordsOf tgt).getD b []).length = tgt.length := by
  rw [tgtWordsOf, transpose01_getD _ _ (by rwa [dim1_map_map])]
  simp

/-- C7: every entry of the decoder self-attention bias tensor is the large
negative constant `-1e9` exactly when the key position holds a padding token or
lies strictly in the future of the query position, and `0` otherwise (the
padding mask and the local/causal mask are or-combined and scaled). -/
theorem C7_decoder_bias (pid : ℕ) (tgt : List (List (List ℕ))) (b q k : ℕ)
    (hrect : ∀ r ∈ tgt, r.length = dim1 tgt)
    (hb : b < dim1 tgt) (hq : q < tgt.length) (hk : k < tgt.length) :
    (((decoderBias pid (tgtWordsOf tgt)).getD b []).getD q []).getD k 0 =
      if wordId ((tgt.getD k []).getD b []) = pid ∨ q < k
      then -(10 ^ 9 : ℚ) else 0 := by
  have hWlen : (tgtWordsOf tgt).length = dim1 tgt := tgtWordsOf_length tgt
  have hWdim : dim1 (tgtWordsOf tgt) = tgt.length :=
    tgtWordsOf_dim1 tgt (Nat.lt_of_le_of_lt (Nat.zero_le b) hb)
  have hrow : ((tgtWordsOf tgt).getD b []).length = tgt.length :=
    tgtWordsOf_row_length tgt b hb
  have hrow' : (((tgtWordsOf tgt)[b]?).getD []).length = tgt.length := by
    rw [← List.getD_eq_getElem?_getD]; exact hrow
  simp only [decoderBias, getLocalMask]
  rw [getD_zipWith_lt _ _ _ b [] [] [] (by simp [hWlen]; omega)
    (by rw [flatten_replicate_singleton, List.length_replicate, hWlen]; omega)]
  rw [getD_map_lt _ _ _ _ [] (by simp [hWlen]; omega),
    getD_map_lt _ _ _ _ [] (by rw [hWlen]; omega),
    flatten_replicate_singleton, flatten_replicate_singleton,
    getD_replicate_lt _ _ _ _ (by rw [hWlen]; omega)]
  rw [getD_zipWith_lt _ _ _ q [] [] [] (by rw [List.length_replicate, hWdim]; omega)
    (by simp [localMat, hWdim]; omega)]
  rw [getD_replicate_lt _ _ _ _ (by rw [hWdim]; omega)]
  rw [show (localMat (dim1 (tgtWordsOf tgt))).getD q [] =
      (List.range (dim1 (tgtWordsOf tgt))).map
        (fun k => if q < k then (1 : ℚ) else 0) from by
    rw [localMat, getD_map_lt _ _ _ _ 0 (by simp [hWdim]; omega),
      range_getD _ _ (by rw [hWdim]; omega)]]
  rw [getD_zipWith_lt _ _ _ k 0 0 0 (by simp [hrow, hrow']; omega)
    (by simp [hWdim]; omega)]
  rw [getD_map_lt _ _ _ _ 0 (by rw [hrow]; omega),
    getD_map_lt _ _ _ _ 0 (by simp [hWdim]; omega),
    range_getD _ _ (by rw [hWdim]; omega)]
  rw [tgtWordsOf_getD_getD tgt b k hrect hb hk]
  simp only [padFlag]
  by_cases hp : wordId ((tgt.getD k []).getD b []) = pid <;> by_cases hf : q < k
  · simp only [if_pos hp, if_pos hf, if_pos (Or.inl hp)]; norm_num
  · simp only [if_pos hp, if_neg hf, if_pos (Or.inl hp)]; norm_num
  · simp only [if_neg hp, if_pos hf, if_pos (Or.inr hf)]; norm_num
  · have hnor : ¬ (wordId ((tgt.getD k []).getD b []) = pid ∨ q < k) := by tauto
    simp only [if_neg hp, if_neg hf, if_neg hnor]; norm_num

theorem C7_decoder_bias_witness :
    (((decoderBias 0 (tgtWordsOf ([[[1]], [[0]]] : List (List (List ℕ))))).getD
        0 []).getD 0 []).getD 1 0 =
      if wordId ((([[[1]], [[0]]] : List (List (List ℕ))).getD 1 []).getD 0 []) = 0
          ∨ 0 < 1
      then -(10 ^ 9 : ℚ) else 0 :=
  C7_decoder_bias 0 [[[1]], [[0]]] 0 0 1 (by decide) (by decide) (by decide)
    (by decide)

/-- A state is well formed when its incremental fields are either both absent
or both present with one cache per decoder layer, every cached slice and every
cached token row carrying the state's own batch dimension (the invariant
`update_state` maintains, spec §3). -/
def StateWF (nl : ℕ) (s : TransformerDecoderState) : Prop :=
  (s.previous_input = none ∧ s.previous_layer_inputs = none) ∨
  (∃ p pli, s.previous_input = some p ∧ s.previous_layer_inputs = some pli ∧
    pli.length = nl ∧ (∀ r ∈ p, r.length = dim1 s.src) ∧
    ∀ c ∈ pli, c.length = dim1 s.src)

theorem forward_transformer_def (D : TransformerDecoder)
    (tgt : List (List (List ℕ))) (mb : List SeqT) (s : TransformerDecoderState) :
    D.forward tgt mb (.transformer s) =
      (if dim1 tgt ≠ dim1 mb then .error .batchMismatch else
       if ¬ ((tgtWordsOf tgt).length = dim1 mb ∧
             dim1 mb = (srcWords s).length) then .error .batchMismatch else
       if mb.length ≠ dim1 (srcWords s) then .error .lengthMismatch else
       .ok (fwdOutputs D tgt mb s, fwdState D tgt mb s,
         ⟨fwdAttn D tgt mb s,
           if D._copy then some (fwdAttn D tgt mb s) else none⟩)) := rfl

theorem srcWords_dim1 (s : TransformerDecoderState) (h : 0 < dim1 s.src) :
    dim1 (srcWords s) = s.src.length := by
  rw [srcWords, dim1_transpose01 _ (by rwa [dim1_map_map]), List.length_map]

/-- C4: on a well-formed call the decoder stack's forward fails (synchronously,
before any layer computation, via the fail-fast assertions of lines 195-207)
exactly when the supplied state is not a `TransformerDecoderState`, or the
batch dimensions of target, memory bank and the state's source reference
disagree, or the memory-bank length disagrees with the source length; the
computation proper has no other failure point and nothing is retried. -/
theorem C4_forward_fail_iff (D : TransformerDecoder) (tgt : List (List (List ℕ)))
    (mb : List SeqT) (state : DecState)
    (hl : 0 < D.layer_stack.length)
    (hwf : ∀ s, state = .transformer s → StateWF D.layer_stack.length s)
    (hsrc : ∀ s, state = .transformer s → 0 < dim1 s.src) :
    (∃ e, D.forward tgt mb state = .error e) ↔
      ((∀ s, state ≠ .transformer s) ∨
       ∃ s, state = .transformer s ∧
         (¬ (dim1 tgt = dim1 mb ∧ dim1 mb = dim1 s.src) ∨
          mb.length ≠ s.src.length)) := by
  cases state with
  | other =>
    constructor
    · intro _; exact Or.inl fun s h => DecState.noConfusion h
    · intro _; exact ⟨.notTransformerState, rfl⟩
  | transformer s =>
    have h0 : 0 < dim1 s.src := hsrc s rfl
    have hsb : (srcWords s).length = dim1 s.src := srcWords_length s
    have hsl : dim1 (srcWords s) = s.src.length := srcWords_dim1 s h0
    have htb : (tgtWordsOf tgt).length = dim1 tgt := tgtWordsOf_length tgt
    rw [forward_transformer_def]
    constructor
    · rintro ⟨e, he⟩
      refine Or.inr ⟨s, rfl, ?_⟩
      by_cases c1 : dim1 tgt ≠ dim1 mb
      · exact Or.inl fun hc => c1 hc.1
      by_cases c2 : ¬ ((tgtWordsOf tgt).length = dim1 mb ∧
          dim1 mb = (srcWords s).length)
      · rw [htb, hsb] at c2; exact Or.inl fun hc => c2 ⟨hc.1, hc.2⟩
      by_cases c3 : mb.length ≠ dim1 (srcWords s)
      · rw [hsl] at c3; exact Or.inr c3
      · rw [if_neg c1, if_neg c2, if_neg c3] at he
        exact absurd he (by simp)
    · rintro (habs | ⟨s', hs', hcond⟩)
      · exact absurd rfl (habs s)
      · have hss : s = s' := by injection hs'
        subst hss
        by_cases c1 : dim1 tgt ≠ dim1 mb
        · exact ⟨.batchMismatch, by rw [if_pos c1]⟩
        rw [not_not] at c1
        by_cases c2 : dim1 mb = dim1 s.src
        · have c3 : mb.length ≠ s.src.length := by
            rcases hcond with hbad | hlen
            · exact absurd ⟨c1, c2⟩ hbad
            · exact hlen
          refine ⟨.lengthMismatch, ?_⟩
          rw [if_neg (by rw [c1]; exact not_not_intro rfl),
            if_neg (by rw [htb, hsb, not_not]; exact ⟨c1, c2⟩),
            if_pos (by rwa [hsl])]
        · exact ⟨.batchMismatch, by
            rw [if_neg (by rw [c1]; exact not_not_intro rfl),
              if_pos (by rw [htb, hsb]; exact fun hc => c2 hc.2)]⟩

theorem C4_forward_fail_iff_witness :
    (∃ e, D0.forward tEx mEx (.transformer sEx) = .error e) ↔
      ((∀ s, DecState.transformer sEx ≠ .transformer s) ∨
       ∃ s, DecState.transformer sEx = .transformer s ∧
         (¬ (dim1 tEx = dim1 mEx ∧ dim1 mEx = dim1 s.src) ∨
          mEx.length ≠ s.src.length)) :=
  C4_forward_fail_iff D0 tEx mEx (.transformer sEx) (by decide)
    (fun s hs => by cases hs; exact Or.inl ⟨rfl, rfl⟩)
    (fun s hs => by cases hs; decide)

theorem runStack_attn_last (enc : List SeqT) (sb eb : Option (List Mat))
    (Ls : List DecoderLayer) (L : DecoderLayer)
    (prevs : Option (List (List SeqT))) (out : List SeqT) :
    (runStack enc sb eb (Ls ++ [L]) prevs out).2.1 =
      (L.forward (runStack enc sb eb Ls prevs out).1 enc sb eb
        ((prevs.map (List.drop Ls.length)).map (·.headD []))).2.1 := by
  induction Ls generalizing prevs out with
  | nil =>
    cases prevs <;> simp [runStack]
  | cons L' Ls ih =>
    have hne : ((Ls ++ [L]).isEmpty) = false := by
      cases Ls <;> simp
    show (runStack enc sb eb (L' :: (Ls ++ [L])) prevs out).2.1 = _
    rw [runStack]
    simp only [hne, Bool.false_eq_true, if_false]
    rw [ih]
    rw [show (runStack enc sb eb (L' :: Ls) prevs out).1 =
        (runStack enc sb eb Ls (prevs.map (List.drop 1))
          ((L'.forward out enc sb eb (prevs.map (·.headD []))).1)).1 from by
      rw [runStack]]
    cases prevs with
    | none => rfl
    | some pl => simp [List.drop_drop, Nat.add_comm]

/-- C8: for a successful decoder forward, `attns["std"]` is exactly the
(transposed) cross-attention weight tensor produced by the final decoder layer
— the layer loop discards every earlier layer's weights — and when the copy
flag is set, `attns["copy"]` is that very same tensor; no separate
copy-attention module contributes to it. -/
theorem C8_attns_last_layer_only (D : TransformerDecoder)
    (Ls0 : List DecoderLayer) (Lf : DecoderLayer)
    (hstack : D.layer_stack = Ls0 ++ [Lf])
    (tgt : List (List (List ℕ))) (mb : List SeqT) (s : TransformerDecoderState)
    (out : List SeqT) (st' : TransformerDecoderState) (ats : Attns)
    (h : D.forward tgt mb (.transformer s) = .ok (out, st', ats)) :
    ats.std = transpose01
      ((Lf.forward
        (runStack (transpose01 mb)
          (some (decoderBias D.word_padding_idx (tgtWordsOf tgt)))
          (some (encDecBias D.word_padding_idx (srcWords s))) Ls0
          s.previous_layer_inputs (transpose01 (embSliced D tgt s))).1
        (transpose01 mb)
        (some (decoderBias D.word_padding_idx (tgtWordsOf tgt)))
        (some (encDecBias D.word_padding_idx (srcWords s)))
        ((s.previous_layer_inputs.map (List.drop Ls0.length)).map
          (·.headD []))).2.1) ∧
    ats.copy = (if D._copy then some ats.std else none) := by
  obtain ⟨-, -, -, hats⟩ := forward_ok_inv D tgt mb s out st' ats h
  subst hats
  constructor
  · show fwdAttn D tgt mb s = _
    rw [fwdAttn, coreRun, hstack, runStack_attn_last]
  · rfl

theorem C8_attns_last_layer_only_witness :
    (⟨fwdAttn D0c tEx mEx sEx,
        if D0c._copy then some (fwdAttn D0c tEx mEx sEx) else none⟩ : Attns).std =
      transpose01
        ((L0.forward
          (runStack (transpose01 mEx)
            (some (decoderBias D0c.word_padding_idx (tgtWordsOf tEx)))
            (some (encDecBias D0c.word_padding_idx (srcWords sEx))) []
            sEx.previous_layer_inputs (transpose01 (embSliced D0c tEx sEx))).1
          (transpose01 mEx)
          (some (decoderBias D0c.word_padding_idx (tgtWordsOf tEx)))
          (some (encDecBias D0c.word_padding_idx (srcWords sEx)))
          ((sEx.previous_layer_inputs.map (List.drop ([] : List DecoderLayer).length)).map
            (·.headD []))).2.1) ∧
    (⟨fwdAttn D0c tEx mEx sEx,
        if D0c._copy then some (fwdAttn D0c tEx mEx sEx) else none⟩ : Attns).copy =
      (if D0c._copy
       then some (⟨fwdAttn D0c tEx mEx sEx,
         if D0c._copy then some (fwdAttn D0c tEx mEx sEx) else none⟩ : Attns).std
       else none) :=
  C8_attns_last_layer_only D0c [] L0 rfl tEx mEx sEx _ _ _
    (forward_transformer_ok D0c tEx mEx sEx (by decide) (by decide) (by decide)
      (by decide))

theorem posMap_mem {α β : Type} (f : ℕ → α → β) (i : ℕ) (l : List α) :
    ∀ it ∈ posMap f i l, ∃ j, ∃ a ∈ l, it = f j a := by
  induction l generalizing i with
  | nil => intro it hit; cases hit
  | cons a as ih =>
    intro it hit
    rw [posMap] at hit
    rcases List.mem_cons.mp hit with hit | hit
    · exact ⟨i, a, List.mem_cons_self a as, hit⟩
    · obtain ⟨j, a', ha', he⟩ := ih (i + 1) it hit
      exact ⟨j, a', List.mem_cons_of_mem a ha', he⟩

theorem dim1_eq_of_items {α : Type} (x : List (List α)) (t : ℕ) (hne : x ≠ [])
    (hit : ∀ it ∈ x, it.length = t) : dim1 x = t := by
  cases x with
  | nil => exact absurd rfl hne
  | cons a as => exact hit a (List.mem_cons_self a as)

theorem normB_length (f : Vec → Vec) (x : List SeqT) :
    (normB f x).length = x.length := by simp [normB]

theorem normB_item (f : Vec → Vec) (x : List SeqT) (t : ℕ)
    (hxi : ∀ it ∈ x, it.length = t) :
    ∀ it ∈ normB f x, it.length = t := by
  intro it hit
  simp only [normB, List.mem_map] at hit
  obtain ⟨it0, h0, rfl⟩ := hit
  simp [hxi it0 h0]

theorem attnSeq_length (A : MultiheadAttention) (qs keys : SeqT)
    (bias : Option Mat) : (attnSeq A qs keys bias).length = qs.length :=
  posMap_length _ _ _

theorem maForward_fst_len (A : MultiheadAttention) (x memory : List SeqT)
    (nh : ℕ) (bias : Option (List Mat)) (b : ℕ) (hx : x.length = b)
    (hm : b ≤ memory.length) (hb : ∀ bs, bias = some bs → b ≤ bs.length) :
    (A.forward x memory nh bias).1.length = b := by
  cases bias with
  | none =>
    simp only [MultiheadAttention.forward, List.length_map, List.length_zip,
      List.length_replicate, hx]
    omega
  | some bs =>
    have := hb bs rfl
    simp only [MultiheadAttention.forward, List.length_map, List.length_zip,
      List.length_map, hx]
    omega

theorem maForward_fst_item (A : MultiheadAttention) (x memory : List SeqT)
    (nh : ℕ) (bias : Option (List Mat)) (t : ℕ)
    (hxi : ∀ it ∈ x, it.length = t) :
    ∀ it ∈ (A.forward x memory nh bias).1, it.length = t := by
  intro it hit
  simp only [MultiheadAttention.forward, List.mem_map] at hit
  obtain ⟨p, hp, rfl⟩ := hit
  have hp1 : p.1 ∈ x := (List.of_mem_zip hp).1
  rw [attnSeq_length]
  exact hxi p.1 hp1

theorem addB_len (y x : List SeqT) : (addB y x).length = min y.length x.length := by
  simp [addB]

theorem addB_item (y x : List SeqT) (t : ℕ)
    (hyi : ∀ it ∈ y, it.length = t) (hxi : ∀ it ∈ x, it.length = t) :
    ∀ it ∈ addB y x, it.length = t := by
  intro it hit
  rw [addB] at hit
  obtain ⟨i, hi, rfl⟩ := List.mem_iff_getElem.mp hit
  rw [List.getElem_zipWith]
  rw [List.length_zipWith]
  rw [hyi _ (List.getElem_mem _), hxi _ (List.getElem_mem _)]
  exact Nat.min_self t

/-- The decoder layer's output pipeline for a given key/value set `ai` and an
already-resolved self-attention bias `sb2` (proof-layer view of lines 114-123). -/
def layerCore (L : DecoderLayer) (x enc : List SeqT) (eb : Option (List Mat))
    (ai : List SeqT) (sb2 : Option (List Mat)) : List SeqT :=
  let y1 := (L.ma_l1.forward (normB L.ma_l1_prenorm x) ai L.num_heads sb2).1
  let x1 := addB y1 x
  let x2 := addB (L.ma_l2.forward (normB L.ma_l2_prenorm x1) enc L.num_heads eb).1 x1
  addB (normB L.ffn (normB L.ffn_prenorm x2)) x2

theorem DecoderLayer.forward_fst_eq (L : DecoderLayer) (x enc : List SeqT)
    (sb eb : Option (List Mat)) (prev : Option (List SeqT)) :
    (L.forward x enc sb eb prev).1 =
      layerCore L x enc eb
        (match prev with
         | some pv => List.zipWith (· ++ ·) pv (normB L.ma_l1_prenorm x)
         | none => normB L.ma_l1_prenorm x)
        (match prev with
         | some _ => none
         | none => sb) := by
  cases prev <;> rfl

theorem layerCore_shape (L : DecoderLayer) (x enc : List SeqT)
    (eb : Option (List Mat)) (ai : List SeqT) (sb2 : Option (List Mat)) (b t : ℕ)
    (hx : x.length = b) (hxi : ∀ it ∈ x, it.length = t)
    (henc : b ≤ enc.length)
    (heb : ∀ bs, eb = some bs → b ≤ bs.length)
    (hai : b ≤ ai.length)
    (hsb2 : ∀ bs, sb2 = some bs → b ≤ bs.length) :
    (layerCore L x enc eb ai sb2).length = b ∧
    ∀ it ∈ layerCore L x enc eb ai sb2, it.length = t := by
  have hnx : (normB L.ma_l1_prenorm x).length = b := by rw [normB_length, hx]
  have hnxi := normB_item L.ma_l1_prenorm x t hxi
  have hy1 : (L.ma_l1.forward (normB L.ma_l1_prenorm x) ai L.num_heads sb2).1.length
      = b := maForward_fst_len _ _ _ _ _ b hnx hai hsb2
  have hy1i := maForward_fst_item L.ma_l1 (normB L.ma_l1_prenorm x) ai
    L.num_heads sb2 t hnxi
  have hx1 : (addB (L.ma_l1.forward (normB L.ma_l1_prenorm x) ai
      L.num_heads sb2).1 x).length = b := by
    rw [addB_len, hy1, hx]; exact Nat.min_self b
  have hx1i := addB_item _ x t hy1i hxi
  have hnx2 : (normB L.ma_l2_prenorm (addB (L.ma_l1.forward
      (normB L.ma_l1_prenorm x) ai L.num_heads sb2).1 x)).length = b := by
    rw [normB_length, hx1]
  have hnx2i := normB_item L.ma_l2_prenorm _ t hx1i
  have hy2 : (L.ma_l2.forward (normB L.ma_l2_prenorm (addB (L.ma_l1.forward
      (normB L.ma_l1_prenorm x) ai L.num_heads sb2).1 x)) enc
      L.num_heads eb).1.length = b :=
    maForward_fst_len _ _ _ _ _ b hnx2 henc heb
  have hy2i := maForward_fst_item L.ma_l2 _ enc L.num_heads eb t hnx2i
  have hx2 : (addB (L.ma_l2.forward (normB L.ma_l2_prenorm (addB
      (L.ma_l1.forward (normB L.ma_l1_prenorm x) ai L.num_heads sb2).1 x)) enc
      L.num_heads eb).1 (addB (L.ma_l1.forward (normB L.ma_l1_prenorm x) ai
      L.num_heads sb2).1 x)).length = b := by
    rw [addB_len, hy2, hx1]; exact Nat.min_self b
  have hx2i := addB_item _ _ t hy2i hx1i
  have hy3i := normB_item L.ffn _ t (normB_item L.ffn_prenorm _ t hx2i)
  have hy3 : (normB L.ffn (normB L.ffn_prenorm (addB (L.ma_l2.forward
      (normB L.ma_l2_prenorm (addB (L.ma_l1.forward (normB L.ma_l1_prenorm x) ai
      L.num_heads sb2).1 x)) enc L.num_heads eb).1 (addB (L.ma_l1.forward
      (normB L.ma_l1_prenorm x) ai L.num_heads sb2).1 x)))).length = b := by
    rw [normB_length, normB_length, hx2]
  constructor
  · show (addB _ _).length = b
    rw [addB_len, hy3, hx2]; exact Nat.min_self b
  · exact addB_item _ _ t hy3i hx2i

theorem DecoderLayer.forward_shape (L : DecoderLayer) (x enc : List SeqT)
    (sb eb : Option (List Mat)) (prev : Option (List SeqT)) (b t : ℕ)
    (hx : x.length = b) (hxi : ∀ it ∈ x, it.length = t)
    (henc : b ≤ enc.length)
    (hsb : ∀ bs, sb = some bs → b ≤ bs.length)
    (heb : ∀ bs, eb = some bs → b ≤ bs.length)
    (hprev : ∀ pv, prev = some pv → b ≤ pv.length) :
    (L.forward x enc sb eb prev).1.length = b ∧
    ∀ it ∈ (L.forward x enc sb eb prev).1, it.length = t := by
  rw [DecoderLayer.forward_fst_eq]
  cases prev with
  | none =>
    exact layerCore_shape L x enc eb _ sb b t hx hxi henc heb
      (by rw [normB_length, hx]) hsb
  | some pv =>
    refine layerCore_shape L x enc eb _ none b t hx hxi henc heb ?_
      (fun bs hbs => by cases hbs)
    rw [List.length_zipWith, normB_length, hx]
    have := hprev pv rfl
    omega

set_option maxHeartbeats 1000000 in
theorem runStack_shape (enc : List SeqT) (sb eb : Option (List Mat))
    (Ls : List DecoderLayer) (prevs : Option (List (List SeqT)))
    (out : List SeqT) (b t : ℕ)
    (hout : out.length = b) (houti : ∀ it ∈ out, it.length = t)
    (henc : b ≤ enc.length)
    (hsb : ∀ bs, sb = some bs → b ≤ bs.length)
    (heb : ∀ bs, eb = some bs → b ≤ bs.length)
    (hprevs : prevs = none ∨ ∃ pl, prevs = some pl ∧ pl.length = Ls.length ∧
      ∀ c ∈ pl, b ≤ c.length) :
    (runStack enc sb eb Ls prevs out).1.length = b ∧
    ∀ it ∈ (runStack enc sb eb Ls prevs out).1, it.length = t := by
  induction Ls generalizing prevs out with
  | nil => exact ⟨hout, houti⟩
  | cons L Ls ih =>
    have hhead : ∀ pv, prevs.map (·.headD []) = some pv → b ≤ pv.length := by
      intro pv hpv
      rcases hprevs with rfl | ⟨pl, rfl, hlen, hmem⟩
      · cases hpv
      · have hpv' : pl.headD [] = pv := by simpa using hpv
        subst hpv'
        cases pl with
        | nil => simp at hlen
        | cons c pl' => exact hmem c (List.mem_cons_self c pl')
    have hlayer := DecoderLayer.forward_shape L out enc sb eb
      (prevs.map (·.headD [])) b t hout houti henc hsb heb hhead
    have htail : prevs.map (List.drop 1) = none ∨
        ∃ pl, prevs.map (List.drop 1) = some pl ∧ pl.length = Ls.length ∧
          ∀ c ∈ pl, b ≤ c.length := by
      rcases hprevs with rfl | ⟨pl, rfl, hlen, hmem⟩
      · exact Or.inl rfl
      · refine Or.inr ⟨pl.drop 1, rfl, ?_, ?_⟩
        · rw [List.length_drop, hlen]; simp
        · intro c hc; exact hmem c (List.mem_of_mem_drop hc)
    have heq : (runStack enc sb eb (L :: Ls) prevs out).1 =
        (runStack enc sb eb Ls (prevs.map (List.drop 1))
          ((L.forward out enc sb eb (prevs.map (·.headD []))).1)).1 := by
      rw [runStack]
    rw [heq]
    apply ih
    · exact hlayer.1
    · exact hlayer.2
    · exact htail

theorem encDecBias_length (pid : ℕ) (sw : List (List ℕ)) :
    (encDecBias pid sw).length = sw.length := by simp [encDecBias]

theorem decoderBias_length (pid : ℕ) (W : List (List ℕ)) :
    (decoderBias pid W).length = W.length := by
  simp only [decoderBias, getLocalMask]
  rw [List.length_zipWith, flatten_replicate_singleton]
  simp

theorem embSliced_length (D : TransformerDecoder) (tgt : List (List (List ℕ)))
    (s : TransformerDecoderState) : (embSliced D tgt s).length = tgt.length := by
  cases hpi : s.previous_input with
  | none => simp [embSliced, catTgt, hpi, embedTokens, posMap_length]
  | some p =>
    simp [embSliced, catTgt, hpi, embedTokens, posMap_length]

theorem embSliced_item (D : TransformerDecoder) (tgt : List (List (List ℕ)))
    (s : TransformerDecoderState) (b : ℕ)
    (hrect : ∀ r ∈ tgt, r.length = b)
    (hprev : ∀ p, s.previous_input = some p → ∀ r ∈ p, r.length = b) :
    ∀ it ∈ embSliced D tgt s, it.length = b := by
  intro it hit
  cases hpi : s.previous_input with
  | none =>
    simp only [embSliced, catTgt, hpi] at hit
    obtain ⟨j, row, hrow, rfl⟩ := posMap_mem _ _ _ it hit
    simp [hrect row hrow]
  | some p =>
    simp only [embSliced, catTgt, hpi] at hit
    have hit' := List.mem_of_mem_drop hit
    obtain ⟨j, row, hrow, rfl⟩ := posMap_mem _ _ _ _ hit'
    rcases List.mem_append.mp hrow with hrow | hrow
    · simp [hprev p hpi row hrow]
    · simp [hrect row hrow]

/-- C3: for every successful decoder forward call on a well-formed state, the
returned outputs tensor has sequence length exactly the number of newly
supplied target tokens (not the cumulative history length), even though the
full prepended history passes through the embeddings before the slice. -/
theorem C3_outputs_length_new_tokens (D : TransformerDecoder)
    (tgt : List (List (List ℕ))) (mb : List SeqT) (s : TransformerDecoderState)
    (out : List SeqT) (st' : TransformerDecoderState) (ats : Attns)
    (h : D.forward tgt mb (.transformer s) = .ok (out, st', ats))
    (hwf : StateWF D.layer_stack.length s)
    (hrect : ∀ r ∈ tgt, r.length = dim1 tgt)
    (htpos : 0 < tgt.length) (hbpos : 0 < dim1 tgt) :
    out.length = tgt.length := by
  obtain ⟨⟨c1, c2, c3, c4⟩, hout, -, -⟩ := forward_ok_inv D tgt mb s out st' ats h
  subst hout
  have hsw : (srcWords s).length = dim1 s.src := srcWords_length s
  have hsrcb : dim1 s.src = dim1 tgt := by omega
  have hmbb : dim1 mb = dim1 tgt := by omega
  have he_len : (embSliced D tgt s).length = tgt.length := embSliced_length D tgt s
  have he_item : ∀ it ∈ embSliced D tgt s, it.length = dim1 tgt := by
    apply embSliced_item D tgt s (dim1 tgt) hrect
    intro p hp r hr
    rcases hwf with ⟨hpi, -⟩ | ⟨p', pli, hpi, -, -, hprect, -⟩
    · rw [hpi] at hp; cases hp
    · rw [hpi] at hp
      have hpp : p' = p := by injection hp
      subst hpp
      rw [hprect r hr, hsrcb]
  have he_ne : embSliced D tgt s ≠ [] := by
    intro hnil
    rw [hnil] at he_len
    simp at he_len
    omega
  have h0len : (transpose01 (embSliced D tgt s)).length = dim1 tgt := by
    rw [transpose01_length, dim1_eq_of_items _ (dim1 tgt) he_ne he_item]
  have h0item : ∀ it ∈ transpose01 (embSliced D tgt s), it.length = tgt.length := by
    intro it hit
    rw [transpose01_mem_length _ it hit, he_len]
  have hprevs : s.previous_layer_inputs = none ∨
      ∃ pl, s.previous_layer_inputs = some pl ∧
        pl.length = D.layer_stack.length ∧
        ∀ c ∈ pl, dim1 tgt ≤ c.length := by
    rcases hwf with ⟨-, hpl⟩ | ⟨p', pli, -, hpl, hplen, -, hpli⟩
    · exact Or.inl hpl
    · refine Or.inr ⟨pli, hpl, hplen, fun c hc => ?_⟩
      rw [hpli c hc, hsrcb]
  have hstack := runStack_shape (transpose01 mb)
    (some (decoderBias D.word_padding_idx (tgtWordsOf tgt)))
    (some (encDecBias D.word_padding_idx (srcWords s)))
    D.layer_stack s.previous_layer_inputs (transpose01 (embSliced D tgt s))
    (dim1 tgt) tgt.length h0len h0item
    (by rw [transpose01_length, hmbb])
    (fun bs hbs => by
      simp only [Option.some.injEq] at hbs
      subst hbs
      rw [decoderBias_length, tgtWordsOf_length])
    (fun bs hbs => by
      simp only [Option.some.injEq] at hbs
      subst hbs
      rw [encDecBias_length, hsw, hsrcb])
    hprevs
  rw [fwdOutputs, coreRun]
  have hnlen : (normB D.layer_norm (runStack (transpose01 mb)
      (some (decoderBias D.word_padding_idx (tgtWordsOf tgt)))
      (some (encDecBias D.word_padding_idx (srcWords s)))
      D.layer_stack s.previous_layer_inputs
      (transpose01 (embSliced D tgt s))).1).length = dim1 tgt := by
    rw [normB_length, hstack.1]
  have hnitem := normB_item D.layer_norm _ tgt.length hstack.2
  have hnne : normB D.layer_norm (runStack (transpose01 mb)
      (some (decoderBias D.word_padding_idx (tgtWordsOf tgt)))
      (some (encDecBias D.word_padding_idx (srcWords s)))
      D.layer_stack s.previous_layer_inputs
      (transpose01 (embSliced D tgt s))).1 ≠ [] := by
    intro hnil
    rw [hnil] at hnlen
    simp at hnlen
    omega
  rw [transpose01_length, dim1_eq_of_items _ tgt.length hnne hnitem]

theorem C3_outputs_length_new_tokens_witness :
    (fwdOutputs D0 tEx mEx sEx).length = tEx.length :=
  C3_outputs_length_new_tokens D0 tEx mEx sEx _ _ _
    (forward_transformer_ok D0 tEx mEx sEx (by decide) (by decide) (by decide)
      (by decide))
    (Or.inl ⟨rfl, rfl⟩) (by decide) (by decide) (by decide)

theorem list_sum_range (f : ℕ → ℚ) (n : ℕ) :
    ((List.range n).map f).sum = ∑ k in Finset.range n, f k := by
  induction n with
  | zero => simp
  | succ m ih => rw [List.range_succ, Finset.sum_range_succ, List.map_append,
      List.sum_append, ih]; simp

theorem sum_range_guard (n N : ℕ) (f : ℕ → ℚ) (hn : n ≤ N) :
    ∑ k in Finset.range n, f k =
      ∑ k in Finset.range N, (if k < n then f k else 0) := by
  have h1 : ∑ k in Finset.range n, f k =
      ∑ k in Finset.range n, (if k < n then f k else 0) :=
    Finset.sum_congr rfl fun k hk => (if_pos (Finset.mem_range.mp hk)).symm
  rw [h1]
  exact Finset.sum_subset (Finset.range_subset.mpr hn)
    (fun x _ hx => if_neg (fun hlt => hx (Finset.mem_range.mpr hlt)))

/-- Unmasked position predicate for a key list and a bias row. -/
def unm (K : List Vec) (r : List ℚ) (k : ℕ) : Prop :=
  k < K.length ∧ r.getD k 0 = 0

theorem mZ_congr (A : MultiheadAttention) (q : Vec) (K K' : List Vec)
    (r r' : List ℚ)
    (hiff : ∀ k, unm K r k ↔ unm K' r' k)
    (hkey : ∀ k, unm K r k → K.getD k [] = K'.getD k []) :
    mZ A q K r = mZ A q K' r' := by
  rw [mZ, mZ, list_sum_range, list_sum_range]
  rw [sum_range_guard K.length (max K.length K'.length) _ (Nat.le_max_left _ _),
    sum_range_guard K'.length (max K.length K'.length) _ (Nat.le_max_right _ _)]
  apply Finset.sum_congr rfl
  intro k _
  by_cases h1 : unm K r k
  · have h2 := (hiff k).mp h1
    rw [if_pos h1.1, if_pos h2.1, if_pos h1.2, if_pos h2.2, hkey k h1]
  · by_cases hk1 : k < K.length
    · have hr1 : ¬ r.getD k 0 = 0 := fun hr => h1 ⟨hk1, hr⟩
      rw [if_pos hk1, if_neg hr1]
      by_cases hk2 : k < K'.length
      · have hr2 : ¬ r'.getD k 0 = 0 := fun hr => h1 ((hiff k).mpr ⟨hk2, hr⟩)
        rw [if_pos hk2, if_neg hr2]
      · rw [if_neg hk2]
    · rw [if_neg hk1]
      by_cases hk2 : k < K'.length
      · by_cases hr2 : r'.getD k 0 = 0
        · exact absurd ((hiff k).mpr ⟨hk2, hr2⟩).1 hk1
        · rw [if_pos hk2, if_neg hr2]
      · rw [if_neg hk2]

theorem mCtx_congr (A : MultiheadAttention) (q : Vec) (K K' : List Vec)
    (r r' : List ℚ)
    (hiff : ∀ k, unm K r k ↔ unm K' r' k)
    (hkey : ∀ k, unm K r k → K.getD k [] = K'.getD k []) :
    mCtx A q K r = mCtx A q K' r' := by
  have hz := mZ_congr A q K K' r r' hiff hkey
  rw [mCtx, mCtx]
  apply List.map_congr_left
  intro i _
  rw [list_sum_range, list_sum_range]
  rw [sum_range_guard K.length (max K.length K'.length) _ (Nat.le_max_left _ _),
    sum_range_guard K'.length (max K.length K'.length) _ (Nat.le_max_right _ _)]
  apply Finset.sum_congr rfl
  intro k _
  by_cases h1 : unm K r k
  · have h2 := (hiff k).mp h1
    rw [if_pos h1.1, if_pos h2.1, mWgt, mWgt, if_pos h1.2, if_pos h2.2,
      hkey k h1, hz]
  · by_cases hk1 : k < K.length
    · have hr1 : ¬ r.getD k 0 = 0 := fun hr => h1 ⟨hk1, hr⟩
      rw [if_pos hk1, mWgt, if_neg hr1, zero_mul]
      by_cases hk2 : k < K'.length
      · have hr2 : ¬ r'.getD k 0 = 0 := fun hr => h1 ((hiff k).mpr ⟨hk2, hr⟩)
        rw [if_pos hk2, mWgt, if_neg hr2, zero_mul]
      · rw [if_neg hk2]
    · rw [if_neg hk1]
      by_cases hk2 : k < K'.length
      · by_cases hr2 : r'.getD k 0 = 0
        · exact absurd ((hiff k).mpr ⟨hk2, hr2⟩).1 hk1
        · rw [if_pos hk2, mWgt, if_neg hr2, zero_mul]
      · rw [if_neg hk2]

theorem posMap_getD {α β : Type} (f : ℕ → α → β) (i j : ℕ) (l : List α)
    (d : β) (d' : α) (hj : j < l.length) :
    (posMap f i l).getD j d = f (i + j) (l.getD j d') := by
  induction l generalizing i j with
  | nil => simp at hj
  | cons a as ih =>
    cases j with
    | zero => simp [posMap]
    | succ m =>
      rw [posMap, List.getD_cons_succ, List.getD_cons_succ,
        ih (i + 1) m (by simpa using hj)]
      congr 1
      omega

theorem getD_take {α : Type} (l : List α) (s i : ℕ) (d : α) (hi : i < s) :
    (l.take s).getD i d = l.getD i d := by
  by_cases h : i < l.length
  · rw [List.getD_eq_getElem _ _ (by simp; omega), List.getElem_take,
      List.getD_eq_getElem _ _ h]
  · rw [List.getD_eq_default _ _ (by simp; omega),
      List.getD_eq_default _ _ (by omega)]

theorem take_succ_getD {α : Type} (l : List α) (t : ℕ) (d : α)
    (ht : t < l.length) :
    l.take (t + 1) = l.take t ++ [l.getD t d] := by
  rw [List.take_succ]
  congr 1
  rw [List.getElem?_eq_getElem ht, List.getD_eq_getElem _ _ ht]
  rfl

theorem zipWith_take_comm {α β γ : Type} (f : α → β → γ) (a : List α)
    (b : List β) (s : ℕ) :
    (List.zipWith f a b).take s = List.zipWith f (a.take s) (b.take s) := by
  induction a generalizing b s with
  | nil => simp
  | cons x xs ih =>
    cases b with
    | nil => simp
    | cons y ys =>
      cases s with
      | zero => simp
      | succ m => simp [ih ys m]

/-- Per-example view of the decoder layer's forward for the batch-size-one
equivalence proofs: the layer output and the concatenated self-attention
inputs, with the same wiring as `DecoderLayer.forward` on one example. -/
def layerItem (L : DecoderLayer) (x enc : SeqT) (sb eb : Option Mat)
    (prev : Option SeqT) : SeqT × SeqT :=
  let norm_x := x.map L.ma_l1_prenorm
  let ai := match prev with | some pv => pv ++ norm_x | none => norm_x
  let sb2 : Option Mat := match prev with | some _ => none | none => sb
  let y1 := attnSeq L.ma_l1 norm_x ai sb2
  let x1 := List.zipWith (List.zipWith (· + ·)) y1 x
  let y2 := attnSeq L.ma_l2 (x1.map L.ma_l2_prenorm) enc eb
  let x2 := List.zipWith (List.zipWith (· + ·)) y2 x1
  let y3 := (x2.map L.ffn_prenorm).map L.ffn
  (List.zipWith (List.zipWith (· + ·)) y3 x2, ai)

theorem DecoderLayer.forward_singleton (L : DecoderLayer) (x enc : SeqT)
    (sb eb : Option Mat) (prev : Option SeqT)
    (sbB ebB : Option (List Mat)) (prevB : Option (List SeqT))
    (hsb : sbB = sb.map fun m => [m]) (heb : ebB = eb.map fun m => [m])
    (hprev : prevB = prev.map fun p => [p]) :
    (L.forward [x] [enc] sbB ebB prevB).1 = [(layerItem L x enc sb eb prev).1] ∧
    (L.forward [x] [enc] sbB ebB prevB).2.2 =
      [(layerItem L x enc sb eb prev).2] := by
  subst hsb heb hprev
  cases prev <;> cases sb <;> cases eb <;>
    exact ⟨by simp [DecoderLayer.forward, MultiheadAttention.forward, layerItem,
        addB, normB],
      by simp [DecoderLayer.forward, MultiheadAttention.forward, layerItem,
        addB, normB]⟩

/-- Per-example view of the decoder stack's layer loop. -/
def stackItem (enc : SeqT) (sb eb : Option Mat) :
    List DecoderLayer → Option (List SeqT) → SeqT → SeqT × List SeqT
  | [], _, out => (out, [])
  | L :: Ls, pcs, out =>
    let r := layerItem L out enc sb eb (pcs.map (·.headD []))
    let rest := stackItem enc sb eb Ls (pcs.map (List.drop 1)) r.1
    (rest.1, r.2 :: rest.2)

theorem runStack_singleton (enc : SeqT) (sb eb : Option Mat)
    (Ls : List DecoderLayer) (pcs : Option (List SeqT)) (out : SeqT)
    (hpcs : pcs = none ∨ ∃ l, pcs = some l ∧ l.length = Ls.length) :
    (runStack [enc] (sb.map fun m => [m]) (eb.map fun m => [m]) Ls
        (pcs.map fun l => l.map fun c => [c]) [out]).1 =
      [(stackItem enc sb eb Ls pcs out).1] ∧
    (runStack [enc] (sb.map fun m => [m]) (eb.map fun m => [m]) Ls
        (pcs.map fun l => l.map fun c => [c]) [out]).2.2 =
      (stackItem enc sb eb Ls pcs out).2.map fun c => [c] := by
  induction Ls generalizing pcs out with
  | nil =>
    rcases hpcs with rfl | ⟨l, rfl, hlen⟩
    · exact ⟨rfl, rfl⟩
    · exact ⟨rfl, rfl⟩
  | cons L Ls ih =>
    rcases hpcs with rfl | ⟨l, rfl, hlen⟩
    · simp only [Option.map_none']
      have hf := DecoderLayer.forward_singleton L out enc sb eb none
        (sb.map fun m => [m]) (eb.map fun m => [m]) none rfl rfl rfl
      have hih := ih none (layerItem L out enc sb eb none).1 (Or.inl rfl)
      simp only [Option.map_none'] at hih
      rw [runStack, stackItem]
      simp only [Option.map_none']
      rw [hf.1, hf.2]
      exact ⟨hih.1, by rw [List.map_cons, hih.2]⟩
    · cases l with
      | nil => simp at hlen
      | cons c l' =>
        have hlen' : l'.length = Ls.length := by simpa using hlen
        simp only [Option.map_some', List.map_cons]
        have hf := DecoderLayer.forward_singleton L out enc sb eb (some c)
          (sb.map fun m => [m]) (eb.map fun m => [m]) (some [c]) rfl rfl rfl
        have hih := ih (some l') (layerItem L out enc sb eb (some c)).1
          (Or.inr ⟨l', rfl, hlen'⟩)
        simp only [Option.map_some'] at hih
        rw [runStack, stackItem]
        simp only [Option.map_some', List.headD_cons, List.drop_succ_cons,
          List.drop_zero]
        rw [hf.1, hf.2]
        exact ⟨hih.1, by rw [List.map_cons, hih.2]⟩

theorem getD_eq_of_take_eq {α : Type} (a b : List α) (s i : ℕ) (d : α)
    (hi : i < s) (h : a.take s = b.take s) : a.getD i d = b.getD i d := by
  rw [← getD_take a s i d hi, ← getD_take b s i d hi, h]

theorem take_eq_of_getD {α : Type} (d : α) (a b : List α) (s : ℕ)
    (ha : s ≤ a.length) (hb : s ≤ b.length)
    (h : ∀ i, i < s → a.getD i d = b.getD i d) : a.take s = b.take s := by
  apply List.ext_getElem
  · simp; omega
  · intro i h1 h2
    have hia : i < a.length := by simp at h1; omega
    have hib : i < b.length := by simp at h2; omega
    have his : i < s := by simp at h1; omega
    have := h i his
    rw [List.getD_eq_getElem _ _ hia, List.getD_eq_getElem _ _ hib] at this
    rw [List.getElem_take, List.getElem_take]
    exact this

theorem attnSeq_getD (A : MultiheadAttention) (qs keys : SeqT) (bias : Option Mat)
    (q : ℕ) (hq : q < qs.length) :
    (attnSeq A qs keys bias).getD q [] = mCtx A (qs.getD q []) keys (rowFor bias q) := by
  rw [attnSeq, posMap_getD _ 0 q qs [] [] hq, Nat.zero_add]

theorem layerItem_fst_length (L : DecoderLayer) (x enc : SeqT)
    (sb eb : Option Mat) (prev : Option SeqT) :
    (layerItem L x enc sb eb prev).1.length = x.length := by
  cases prev <;>
    simp [layerItem, attnSeq, posMap_length, Nat.min_self]

theorem layerItem_snd_none (L : DecoderLayer) (x enc : SeqT)
    (sb eb : Option Mat) :
    (layerItem L x enc sb eb none).2 = x.map L.ma_l1_prenorm := by
  simp [layerItem]

theorem layerItem_snd_some (L : DecoderLayer) (x enc : SeqT)
    (sb eb : Option Mat) (pv : SeqT) :
    (layerItem L x enc sb eb (some pv)).2 = pv ++ x.map L.ma_l1_prenorm := by
  simp [layerItem]

theorem stackItem_fst_length (enc : SeqT) (sb eb : Option Mat)
    (Ls : List DecoderLayer) (pcs : Option (List SeqT)) (out : SeqT) :
    (stackItem enc sb eb Ls pcs out).1.length = out.length := by
  induction Ls generalizing pcs out with
  | nil => rfl
  | cons L Ls ih =>
    show (stackItem enc sb eb Ls (pcs.map (List.drop 1))
      (layerItem L out enc sb eb (pcs.map (·.headD []))).1).1.length = out.length
    rw [ih, layerItem_fst_length]

theorem stackItem_saved_count (enc : SeqT) (sb eb : Option Mat)
    (Ls : List DecoderLayer) (pcs : Option (List SeqT)) (out : SeqT) :
    (stackItem enc sb eb Ls pcs out).2.length = Ls.length := by
  induction Ls generalizing pcs out with
  | nil => rfl
  | cons L Ls ih =>
    show ((layerItem L out enc sb eb (pcs.map (·.headD []))).2 ::
      (stackItem enc sb eb Ls (pcs.map (List.drop 1))
        (layerItem L out enc sb eb (pcs.map (·.headD []))).1).2).length = _
    simp [ih]

theorem stackItem_saved_length_none (enc : SeqT) (sb eb : Option Mat)
    (Ls : List DecoderLayer) (out : SeqT) :
    ∀ c ∈ (stackItem enc sb eb Ls none out).2, c.length = out.length := by
  induction Ls generalizing out with
  | nil => intro c hc; cases hc
  | cons L Ls ih =>
    intro c hc
    have hc' : c ∈ (layerItem L out enc sb eb none).2 ::
        (stackItem enc sb eb Ls none
          (layerItem L out enc sb eb none).1).2 := hc
    rcases List.mem_cons.mp hc' with rfl | hmem
    · rw [layerItem_snd_none]; simp
    · have := ih (layerItem L out enc sb eb none).1 c hmem
      rw [this, layerItem_fst_length]

theorem map_take_eq (f : Vec → Vec) (a b : List Vec) (s : ℕ)
    (ha : s ≤ a.length) (hb : s ≤ b.length) (h : a.take s = b.take s) :
    (a.map f).take s = (b.map f).take s := by
  apply take_eq_of_getD ([] : Vec) _ _ s (by simpa using ha) (by simpa using hb)
  intro i hi
  rw [getD_map_lt _ _ _ _ [] (by omega), getD_map_lt _ _ _ _ [] (by omega)]
  rw [getD_eq_of_take_eq a b s i [] hi h]

theorem layerItem_prefix (L : DecoderLayer) (x₁ x₂ enc : SeqT) (B₁ B₂ : Mat)
    (eb : Option Mat) (s : ℕ)
    (hs₁ : s ≤ x₁.length) (hs₂ : s ≤ x₂.length)
    (hx : x₁.take s = x₂.take s)
    (hc₁ : ∀ q k, q < x₁.length → q < k → k < x₁.length →
      (rowFor (some B₁) q).getD k 0 ≠ 0)
    (hc₂ : ∀ q k, q < x₂.length → q < k → k < x₂.length →
      (rowFor (some B₂) q).getD k 0 ≠ 0)
    (hagree : ∀ q k, q < s → k ≤ q →
      ((rowFor (some B₁) q).getD k 0 = 0 ↔ (rowFor (some B₂) q).getD k 0 = 0)) :
    (layerItem L x₁ enc (some B₁) eb none).1.take s =
      (layerItem L x₂ enc (some B₂) eb none).1.take s ∧
    (layerItem L x₁ enc (some B₁) eb none).2.take s =
      (layerItem L x₂ enc (some B₂) eb none).2.take s := by
  have hnx : (x₁.map L.ma_l1_prenorm).take s = (x₂.map L.ma_l1_prenorm).take s :=
    map_take_eq _ _ _ s hs₁ hs₂ hx
  have hy1 : (attnSeq L.ma_l1 (x₁.map L.ma_l1_prenorm) (x₁.map L.ma_l1_prenorm)
        (some B₁)).take s =
      (attnSeq L.ma_l1 (x₂.map L.ma_l1_prenorm) (x₂.map L.ma_l1_prenorm)
        (some B₂)).take s := by
    apply take_eq_of_getD ([] : Vec) _ _ s
      (by rw [attnSeq_length]; simpa using hs₁)
      (by rw [attnSeq_length]; simpa using hs₂)
    intro q hq
    rw [attnSeq_getD _ _ _ _ q (by simp; omega),
      attnSeq_getD _ _ _ _ q (by simp; omega)]
    rw [getD_eq_of_take_eq _ _ s q [] hq hnx]
    apply mCtx_congr
    · intro k
      constructor
      · rintro ⟨hkL, hk0⟩
        simp only [List.length_map] at hkL
        have hkq : k ≤ q := by
          by_contra hgt
          exact hc₁ q k (by omega) (by omega) hkL hk0
        refine ⟨by simp; omega, (hagree q k hq hkq).mp hk0⟩
      · rintro ⟨hkL, hk0⟩
        simp only [List.length_map] at hkL
        have hkq : k ≤ q := by
          by_contra hgt
          exact hc₂ q k (by omega) (by omega) hkL hk0
        refine ⟨by simp; omega, (hagree q k hq hkq).mpr hk0⟩
    · rintro k ⟨hkL, hk0⟩
      simp only [List.length_map] at hkL
      have hkq : k ≤ q := by
        by_contra hgt
        exact hc₁ q k (by omega) (by omega) hkL hk0
      exact getD_eq_of_take_eq _ _ s k [] (by omega) hnx
  have hy1len₁ : (attnSeq L.ma_l1 (x₁.map L.ma_l1_prenorm)
      (x₁.map L.ma_l1_prenorm) (some B₁)).length = x₁.length := by
    rw [attnSeq_length, List.length_map]
  have hy1len₂ : (attnSeq L.ma_l1 (x₂.map L.ma_l1_prenorm)
      (x₂.map L.ma_l1_prenorm) (some B₂)).length = x₂.length := by
    rw [attnSeq_length, List.length_map]
  have hx1 : (List.zipWith (List.zipWith (· + ·))
        (attnSeq L.ma_l1 (x₁.map L.ma_l1_prenorm) (x₁.map L.ma_l1_prenorm)
          (some B₁)) x₁).take s =
      (List.zipWith (List.zipWith (· + ·))
        (attnSeq L.ma_l1 (x₂.map L.ma_l1_prenorm) (x₂.map L.ma_l1_prenorm)
          (some B₂)) x₂).take s := by
    rw [zipWith_take_comm, zipWith_take_comm, hy1, hx]
  have hx1len₁ : (List.zipWith (List.zipWith (· + ·))
      (attnSeq L.ma_l1 (x₁.map L.ma_l1_prenorm) (x₁.map L.ma_l1_prenorm)
        (some B₁)) x₁).length = x₁.length := by
    rw [List.length_zipWith, hy1len₁, Nat.min_self]
  have hx1len₂ : (List.zipWith (List.zipWith (· + ·))
      (attnSeq L.ma_l1 (x₂.map L.ma_l1_prenorm) (x₂.map L.ma_l1_prenorm)
        (some B₂)) x₂).length = x₂.length := by
    rw [List.length_zipWith, hy1len₂, Nat.min_self]
  set x1a := List.zipWith (List.zipWith (· + ·))
    (attnSeq L.ma_l1 (x₁.map L.ma_l1_prenorm) (x₁.map L.ma_l1_prenorm)
      (some B₁)) x₁ with hx1adef
  set x1b := List.zipWith (List.zipWith (· + ·))
    (attnSeq L.ma_l1 (x₂.map L.ma_l1_prenorm) (x₂.map L.ma_l1_prenorm)
      (some B₂)) x₂ with hx1bdef
  clear_value x1a x1b
  have hnx2 : (x1a.map L.ma_l2_prenorm).take s = (x1b.map L.ma_l2_prenorm).take s :=
    map_take_eq _ _ _ s (by omega) (by omega) hx1
  have hy2 : (attnSeq L.ma_l2 (x1a.map L.ma_l2_prenorm) enc eb).take s =
      (attnSeq L.ma_l2 (x1b.map L.ma_l2_prenorm) enc eb).take s := by
    apply take_eq_of_getD ([] : Vec) _ _ s
      (by rw [attnSeq_length]; simp; omega)
      (by rw [attnSeq_length]; simp; omega)
    intro q hq
    rw [attnSeq_getD _ _ _ _ q (by simp; omega),
      attnSeq_getD _ _ _ _ q (by simp; omega)]
    rw [getD_eq_of_take_eq _ _ s q [] hq hnx2]
  have hx2 : (List.zipWith (List.zipWith (· + ·))
        (attnSeq L.ma_l2 (x1a.map L.ma_l2_prenorm) enc eb) x1a).take s =
      (List.zipWith (List.zipWith (· + ·))
        (attnSeq L.ma_l2 (x1b.map L.ma_l2_prenorm) enc eb) x1b).take s := by
    rw [zipWith_take_comm, zipWith_take_comm, hy2, hx1]
  set x2a := List.zipWith (List.zipWith (· + ·))
    (attnSeq L.ma_l2 (x1a.map L.ma_l2_prenorm) enc eb) x1a with hx2adef
  set x2b := List.zipWith (List.zipWith (· + ·))
    (attnSeq L.ma_l2 (x1b.map L.ma_l2_prenorm) enc eb) x1b with hx2bdef
  clear_value x2a x2b
  have hx2len₁ : x2a.length = x₁.length := by
    rw [hx2adef, List.length_zipWith, attnSeq_length, List.length_map,
      hx1len₁, Nat.min_self]
  have hx2len₂ : x2b.length = x₂.length := by
    rw [hx2bdef, List.length_zipWith, attnSeq_length, List.length_map,
      hx1len₂, Nat.min_self]
  have hy3 : ((x2a.map L.ffn_prenorm).map L.ffn).take s =
      ((x2b.map L.ffn_prenorm).map L.ffn).take s := by
    apply map_take_eq _ _ _ s (by simp; omega) (by simp; omega)
    exact map_take_eq _ _ _ s (by omega) (by omega) hx2
  have hfinal : (List.zipWith (List.zipWith (· + ·))
        ((x2a.map L.ffn_prenorm).map L.ffn) x2a).take s =
      (List.zipWith (List.zipWith (· + ·))
        ((x2b.map L.ffn_prenorm).map L.ffn) x2b).take s := by
    rw [zipWith_take_comm, zipWith_take_comm, hy3, hx2]
  constructor
  · simp only [layerItem]
    rw [← hx1adef, ← hx1bdef, ← hx2adef, ← hx2bdef]
    exact hfinal
  · simp only [layerItem]
    exact hnx

theorem stackItem_prefix (enc : SeqT) (eb : Option Mat) (B₁ B₂ : Mat)
    (Ls : List DecoderLayer) (x₁ x₂ : SeqT) (s n₁ n₂ : ℕ)
    (hn₁ : x₁.length = n₁) (hn₂ : x₂.length = n₂)
    (hs₁ : s ≤ n₁) (hs₂ : s ≤ n₂)
    (hx : x₁.take s = x₂.take s)
    (hc₁ : ∀ q k, q < n₁ → q < k → k < n₁ → (rowFor (some B₁) q).getD k 0 ≠ 0)
    (hc₂ : ∀ q k, q < n₂ → q < k → k < n₂ → (rowFor (some B₂) q).getD k 0 ≠ 0)
    (hagree : ∀ q k, q < s → k ≤ q →
      ((rowFor (some B₁) q).getD k 0 = 0 ↔ (rowFor (some B₂) q).getD k 0 = 0)) :
    (stackItem enc (some B₁) eb Ls none x₁).1.take s =
      (stackItem enc (some B₂) eb Ls none x₂).1.take s ∧
    List.Forall₂ (fun a b => a.take s = b.take s)
      (stackItem enc (some B₁) eb Ls none x₁).2
      (stackItem enc (some B₂) eb Ls none x₂).2 := by
  induction Ls generalizing x₁ x₂ with
  | nil => exact ⟨hx, List.Forall₂.nil⟩
  | cons L Ls ih =>
    have hl := layerItem_prefix L x₁ x₂ enc B₁ B₂ eb s
      (by omega) (by omega) hx
      (fun q k hq hqk hk => hc₁ q k (by omega) hqk (by omega))
      (fun q k hq hqk hk => hc₂ q k (by omega) hqk (by omega))
      hagree
    have hlen1 : (layerItem L x₁ enc (some B₁) eb none).1.length = n₁ := by
      rw [layerItem_fst_length, hn₁]
    have hlen2 : (layerItem L x₂ enc (some B₂) eb none).1.length = n₂ := by
      rw [layerItem_fst_length, hn₂]
    have hrest := ih _ _ hlen1 hlen2 hl.1
    constructor
    · show (stackItem enc (some B₁) eb Ls none
          (layerItem L x₁ enc (some B₁) eb none).1).1.take s =
        (stackItem enc (some B₂) eb Ls none
          (layerItem L x₂ enc (some B₂) eb none).1).1.take s
      exact hrest.1
    · show List.Forall₂ (fun a b => a.take s = b.take s)
        ((layerItem L x₁ enc (some B₁) eb none).2 ::
          (stackItem enc (some B₁) eb Ls none
            (layerItem L x₁ enc (some B₁) eb none).1).2)
        ((layerItem L x₂ enc (some B₂) eb none).2 ::
          (stackItem enc (some B₂) eb Ls none
            (layerItem L x₂ enc (some B₂) eb none).1).2)
      exact List.Forall₂.cons hl.2 hrest.2

theorem attnSeq_singleton (A : MultiheadAttention) (q : Vec) (keys : SeqT)
    (bias : Option Mat) :
    attnSeq A [q] keys bias = [mCtx A q keys (rowFor bias 0)] := by
  simp [attnSeq, posMap]

theorem rowFor_broadcast (eb : Option Mat)
    (heb1 : eb = none ∨ ∃ m, eb = some m ∧ m.length = 1) (i j : ℕ) :
    rowFor eb i = rowFor eb j := by
  rcases heb1 with rfl | ⟨m, rfl, hm⟩
  · rfl
  · simp [rowFor, hm]

theorem layerItem_step (L : DecoderLayer) (xF enc : SeqT) (BF : Mat)
    (eb : Option Mat) (t : ℕ) (ht : t < xF.length)
    (hmask : ∀ k, k < xF.length → ((rowFor (some BF) t).getD k 0 = 0 ↔ k ≤ t))
    (heb1 : eb = none ∨ ∃ m, eb = some m ∧ m.length = 1)
    (sbAny : Option Mat) :
    (layerItem L [xF.getD t []] enc sbAny eb
        (some ((xF.map L.ma_l1_prenorm).take t))).1 =
      [(layerItem L xF enc (some BF) eb none).1.getD t []] ∧
    (layerItem L [xF.getD t []] enc sbAny eb
        (some ((xF.map L.ma_l1_prenorm).take t))).2 =
      (xF.map L.ma_l1_prenorm).take (t + 1) := by
  have hnIlen : (xF.map L.ma_l1_prenorm).length = xF.length := List.length_map _ _
  have h0 : [xF.getD t []].map L.ma_l1_prenorm =
      [(xF.map L.ma_l1_prenorm).getD t []] := by
    rw [List.map_cons, List.map_nil, getD_map_lt _ _ _ _ [] ht]
  have h1 : (xF.map L.ma_l1_prenorm).take t ++ [xF.getD t []].map L.ma_l1_prenorm =
      (xF.map L.ma_l1_prenorm).take (t + 1) := by
    rw [h0, ← take_succ_getD _ t [] (by omega)]
  constructor
  · simp only [layerItem]
    rw [h0, ← take_succ_getD (xF.map L.ma_l1_prenorm) t ([] : Vec) (by omega)]
    set nI := xF.map L.ma_l1_prenorm with hnI
    set y1F := attnSeq L.ma_l1 nI nI (some BF) with hy1F
    set x1F := List.zipWith (List.zipWith (· + ·)) y1F xF with hx1F
    set y2F := attnSeq L.ma_l2 (x1F.map L.ma_l2_prenorm) enc eb with hy2F
    set x2F := List.zipWith (List.zipWith (· + ·)) y2F x1F with hx2F
    clear_value nI y1F x1F y2F x2F
    have hy1Flen : y1F.length = xF.length := by
      rw [hy1F, attnSeq_length, hnI, List.length_map]
    have hx1Flen : x1F.length = xF.length := by
      rw [hx1F, List.length_zipWith, hy1Flen, Nat.min_self]
    have hy2Flen : y2F.length = xF.length := by
      rw [hy2F, attnSeq_length, List.length_map, hx1Flen]
    have hx2Flen : x2F.length = xF.length := by
      rw [hx2F, List.length_zipWith, hy2Flen, hx1Flen, Nat.min_self]
    have h2 : attnSeq L.ma_l1 [nI.getD t []] (nI.take (t + 1)) none =
        [y1F.getD t []] := by
      rw [attnSeq_singleton, hy1F,
        attnSeq_getD _ _ _ _ t (by rw [hnIlen]; omega)]
      congr 1
      apply mCtx_congr
      · intro k
        constructor
        · rintro ⟨hkL, -⟩
          rw [List.length_take] at hkL
          have hkt : k ≤ t := by omega
          refine ⟨by rw [hnIlen]; omega, ?_⟩
          exact (hmask k (by omega)).mpr hkt
        · rintro ⟨hkL, hk0⟩
          rw [hnI, List.length_map] at hkL
          have hkt : k ≤ t := (hmask k hkL).mp hk0
          refine ⟨by rw [List.length_take]; omega, ?_⟩
          simp [rowFor]
      · rintro k ⟨hkL, -⟩
        rw [List.length_take] at hkL
        exact getD_take _ _ _ _ (by omega)
    have h3 : List.zipWith (List.zipWith (· + ·)) [y1F.getD t []] [xF.getD t []] =
        [x1F.getD t []] := by
      rw [List.zipWith_cons_cons, List.zipWith_nil_left, hx1F,
        getD_zipWith_lt _ _ _ t [] [] [] (by omega) ht]
    have h4 : attnSeq L.ma_l2 ([x1F.getD t []].map L.ma_l2_prenorm) enc eb =
        [y2F.getD t []] := by
      rw [List.map_cons, List.map_nil, attnSeq_singleton, hy2F,
        attnSeq_getD _ _ _ _ t (by rw [List.length_map]; omega),
        getD_map_lt _ _ _ _ [] (by omega),
        rowFor_broadcast eb heb1 0 t]
    have h5 : List.zipWith (List.zipWith (· + ·)) [y2F.getD t []] [x1F.getD t []] =
        [x2F.getD t []] := by
      rw [List.zipWith_cons_cons, List.zipWith_nil_left, hx2F,
        getD_zipWith_lt _ _ _ t [] [] [] (by omega) (by omega)]
    rw [h2, h3, h4, h5]
    rw [List.map_cons, List.map_nil, List.map_cons, List.map_nil,
      List.zipWith_cons_cons, List.zipWith_nil_left]
    rw [getD_zipWith_lt _ _ _ t [] [] [] (by simp; omega) (by omega),
      getD_map_lt _ _ _ _ [] (by simp; omega),
      getD_map_lt _ _ _ _ [] (by omega)]
  · simp only [layerItem]
    exact h1

theorem stackItem_cons (enc : SeqT) (sb eb : Option Mat) (L : DecoderLayer)
    (Ls : List DecoderLayer) (pcs : Option (List SeqT)) (out : SeqT) :
    stackItem enc sb eb (L :: Ls) pcs out =
      ((stackItem enc sb eb Ls (pcs.map (List.drop 1))
        (layerItem L out enc sb eb (pcs.map (·.headD []))).1).1,
       (layerItem L out enc sb eb (pcs.map (·.headD []))).2 ::
        (stackItem enc sb eb Ls (pcs.map (List.drop 1))
          (layerItem L out enc sb eb (pcs.map (·.headD []))).1).2) := rfl

theorem stackItem_step (enc : SeqT) (eb : Option Mat) (Ls : List DecoderLayer)
    (BF : Mat) (xF : SeqT) (t n : ℕ) (hn : xF.length = n) (ht : t < n)
    (hmask : ∀ k, k < n → ((rowFor (some BF) t).getD k 0 = 0 ↔ k ≤ t))
    (heb1 : eb = none ∨ ∃ m, eb = some m ∧ m.length = 1)
    (sbAny : Option Mat) :
    (stackItem enc sbAny eb Ls
        (some ((stackItem enc (some BF) eb Ls none xF).2.map (·.take t)))
        [xF.getD t []]).1 =
      [(stackItem enc (some BF) eb Ls none xF).1.getD t []] ∧
    (stackItem enc sbAny eb Ls
        (some ((stackItem enc (some BF) eb Ls none xF).2.map (·.take t)))
        [xF.getD t []]).2 =
      (stackItem enc (some BF) eb Ls none xF).2.map (·.take (t + 1)) := by
  induction Ls generalizing xF with
  | nil => exact ⟨rfl, rfl⟩
  | cons L Ls ih =>
    have hr2 := layerItem_snd_none L xF enc (some BF) eb
    have hstep := layerItem_step L xF enc BF eb t (by omega)
      (fun k hk => hmask k (by omega)) heb1 sbAny
    have hlen1 : (layerItem L xF enc (some BF) eb none).1.length = n := by
      rw [layerItem_fst_length, hn]
    have hih := ih (layerItem L xF enc (some BF) eb none).1 hlen1
    rw [stackItem_cons enc (some BF) eb L Ls none xF,
      stackItem_cons enc sbAny eb L Ls _ [xF.getD t []]]
    simp only [Option.map_none', Option.map_some', List.map_cons,
      List.headD_cons, List.drop_succ_cons, List.drop_zero]
    rw [hr2, hstep.1, hstep.2]
    constructor
    · exact hih.1
    · rw [hih.2, ← hr2]

/-- Batch-size-one token tensor holding one example's token sequence. -/
def colTokens (T : List (List ℕ)) : List (List (List ℕ)) := T.map fun tok => [tok]

/-- Batch-size-one memory bank holding one example's encoder outputs. -/
def colMem (mem : SeqT) : List SeqT := mem.map fun v => [v]

/-- One example's embedded target sequence (position-dependent embeddings). -/
def embItem (D : TransformerDecoder) (T : List (List ℕ)) : SeqT :=
  posMap (fun p tok => D.embed tok p) 0 T

/-- One example's decoder self-attention bias matrix. -/
def dbItem (padding_idx : ℕ) (w : List ℕ) : Mat :=
  List.zipWith (fun mr lr => List.zipWith (fun a b =>
      (if 0 < a + b then (1 : ℚ) else 0) * (-(10 ^ 9 : ℚ))) mr lr)
    (List.replicate w.length (w.map (padFlag padding_idx))) (localMat w.length)

/-- One example's cross-attention bias matrix (a single broadcast row). -/
def ebItem (padding_idx : ℕ) (sw : List ℕ) : Mat :=
  [(sw.map (padFlag padding_idx)).map (· * (-(10 ^ 9 : ℚ)))]

theorem range_map_getD {α : Type} (l : List α) (d : α) :
    (List.range l.length).map (fun i => l.getD i d) = l := by
  apply List.ext_getElem (by simp)
  intro i h1 h2
  simp only [List.getElem_map, List.getElem_range]
  rw [List.getD_eq_getElem _ _ h2]

theorem transpose01_col {α : Type} [Inhabited α] (l : List α) (hl : l ≠ []) :
    transpose01 (l.map fun v => [v]) = [l] := by
  cases l with
  | nil => exact absurd rfl hl
  | cons a as =>
    rw [transpose01]
    simp [List.range_succ, List.map_map, Function.comp_def]

theorem transpose01_single (y : SeqT) :
    transpose01 [y] = y.map fun v => [v] := by
  rw [transpose01]
  simp only [List.headD_cons, List.map_cons, List.map_nil]
  conv_rhs => rw [← range_map_getD y ([] : Vec)]
  rw [List.map_map]
  rfl

theorem posMap_map {α β γ : Type} (f : ℕ → β → γ) (g : α → β) (i : ℕ)
    (l : List α) :
    posMap f i (l.map g) = posMap (fun p a => f p (g a)) i l := by
  induction l generalizing i with
  | nil => rfl
  | cons a as ih => simp [posMap, ih]

theorem posMap_col {α β : Type} (f : ℕ → α → β) (i : ℕ) (l : List α) :
    posMap (fun p a => [f p a]) i l = (posMap f i l).map fun v => [v] := by
  induction l generalizing i with
  | nil => rfl
  | cons a as ih => simp [posMap, ih]

theorem posMap_append {α β : Type} (f : ℕ → α → β) (i : ℕ) (l₁ l₂ : List α) :
    posMap f i (l₁ ++ l₂) = posMap f i l₁ ++ posMap f (i + l₁.length) l₂ := by
  induction l₁ generalizing i with
  | nil => simp [posMap]
  | cons a as ih =>
    simp only [List.cons_append, posMap, ih, List.length_cons]
    rw [show i + (as.length + 1) = i + 1 + as.length by omega]
    rw [show as.append l₂ = as ++ l₂ from rfl, ih]

theorem posMap_take {α β : Type} (f : ℕ → α → β) (i s : ℕ) (l : List α) :
    (posMap f i l).take s = posMap f i (l.take s) := by
  induction l generalizing i s with
  | nil => simp [posMap]
  | cons a as ih =>
    cases s with
    | zero => rfl
    | succ m => simp [posMap, ih]

theorem embedTokens_col (D : TransformerDecoder) (T : List (List ℕ)) :
    embedTokens D (colTokens T) = (embItem D T).map fun v => [v] := by
  rw [embedTokens, colTokens, posMap_map, embItem, ← posMap_col]
  rfl

theorem tgtWordsOf_col (T : List (List ℕ)) (hT : T ≠ []) :
    tgtWordsOf (colTokens T) = [T.map wordId] := by
  rw [tgtWordsOf, colTokens, List.map_map]
  have : ((fun r => List.map wordId r) ∘ fun tok => [tok]) =
      fun (tok : List ℕ) => [wordId tok] := by
    funext tok; rfl
  rw [this]
  have h2 : (fun (tok : List ℕ) => [wordId tok]) =
      (fun v => [v]) ∘ wordId := rfl
  rw [h2, ← List.map_map]
  exact transpose01_col _ (by simpa using hT)

theorem srcWords_col (S : List (List ℕ)) (hS : S ≠ []) :
    srcWords ⟨colTokens S, none, none⟩ = [S.map wordId] := by
  show transpose01 ((colTokens S).map (·.map wordId)) = _
  rw [colTokens, List.map_map]
  have : ((fun r => List.map wordId r) ∘ fun tok => [tok]) =
      (fun v => [v]) ∘ wordId := by
    funext tok; rfl
  rw [this, ← List.map_map]
  exact transpose01_col _ (by simpa using hS)

theorem decoderBias_singleton (pid : ℕ) (w : List ℕ) :
    decoderBias pid [w] = [dbItem pid w] := by
  simp only [decoderBias, getLocalMask, dbItem, dim1, List.headD_cons,
    List.length_map, List.length_cons, List.length_nil, List.map_cons,
    List.map_nil]
  rw [flatten_replicate_singleton]
  rfl

theorem encDecBias_singleton (pid : ℕ) (sw : List ℕ) :
    encDecBias pid [sw] = [ebItem pid sw] := rfl

/-- `rowFor` on a bias whose row count covers the query index selects the
query's row (including the batch-1 broadcast case). -/
theorem rowFor_getD (B : Mat) (q : ℕ) (hq : q < B.length) :
    rowFor (some B) q = B.getD q [] := by
  show (if B.length = 1 then B.headD [] else B.getD q []) = B.getD q []
  by_cases h : B.length = 1
  · rw [if_pos h]
    have hq0 : q = 0 := by omega
    subst hq0
    cases B with
    | nil => simp at hq
    | cons r rs => rfl
  · rw [if_neg h]

theorem dbItem_length (pid : ℕ) (w : List ℕ) :
    (dbItem pid w).length = w.length := by
  simp [dbItem, localMat]

theorem localMat_getD (n q : ℕ) (hq : q < n) :
    (localMat n).getD q [] =
      (List.range n).map fun k => if q < k then (1 : ℚ) else 0 := by
  rw [localMat, getD_map_lt _ _ _ _ 0 (by simp; omega), range_getD _ _ hq]

/-- Entry `(q, k)` of the one-example decoder self-attention bias. -/
theorem dbItem_entry (pid : ℕ) (w : List ℕ) (q k : ℕ)
    (hq : q < w.length) (hk : k < w.length) :
    (rowFor (some (dbItem pid w)) q).getD k 0 =
      (if 0 < padFlag pid (w.getD k 0) + (if q < k then (1 : ℚ) else 0)
        then (1 : ℚ) else 0) * (-(10 ^ 9 : ℚ)) := by
  rw [rowFor_getD _ _ (by rw [dbItem_length]; omega), dbItem]
  rw [getD_zipWith_lt _ _ _ q ([] : List ℚ) ([] : List ℚ) ([] : List ℚ)
    (by simp; omega) (by simp [localMat]; omega)]
  rw [getD_replicate_lt _ _ _ _ hq, localMat_getD _ _ hq]
  rw [getD_zipWith_lt _ _ _ k (0 : ℚ) (0 : ℚ) (0 : ℚ)
    (by simp; omega) (by simp; omega)]
  rw [getD_map_lt _ _ _ _ 0 hk, getD_map_lt _ _ _ _ 0 (by simp; omega),
    range_getD _ _ hk]

/-- A key strictly in the query's future is always masked (entry `-1e9`). -/
theorem dbItem_future_ne (pid : ℕ) (w : List ℕ) (q k : ℕ)
    (hq : q < w.length) (hqk : q < k) (hk : k < w.length) :
    (rowFor (some (dbItem pid w)) q).getD k 0 ≠ 0 := by
  rw [dbItem_entry pid w q k hq hk]
  have hp : (0 : ℚ) ≤ padFlag pid (w.getD k 0) := by
    rw [padFlag]; split <;> norm_num
  rw [if_pos hqk, if_pos (by linarith)]
  norm_num

/-- A bias entry is exactly zero iff the key is a non-padding token at or
before the query position. -/
theorem dbItem_zero_iff (pid : ℕ) (w : List ℕ) (q k : ℕ)
    (hq : q < w.length) (hk : k < w.length) :
    (rowFor (some (dbItem pid w)) q).getD k 0 = 0 ↔
      (w.getD k 0 ≠ pid ∧ k ≤ q) := by
  rw [dbItem_entry pid w q k hq hk, padFlag]
  by_cases hw : w.getD k 0 = pid
  · rw [if_pos hw]
    have h1 : (0 : ℚ) < 1 + (if q < k then (1 : ℚ) else 0) := by
      split <;> norm_num
    rw [if_pos h1]
    constructor
    · intro h; norm_num at h
    · rintro ⟨hne, -⟩; exact absurd hw hne
  · rw [if_neg hw]
    by_cases hqk : q < k
    · rw [if_pos hqk, if_pos (by norm_num)]
      constructor
      · intro h; norm_num at h
      · rintro ⟨-, hkq⟩; omega
    · rw [if_neg hqk, if_neg (by norm_num)]
      constructor
      · intro _; exact ⟨hw, by omega⟩
      · intro _; norm_num

theorem take_drop_getD {α : Type} (l : List α) (t : ℕ) (d : α)
    (ht : t < l.length) :
    (l.take (t + 1)).drop t = [l.getD t d] := by
  rw [take_succ_getD l t d ht]
  have h1 : (l.take t).length = t := by rw [List.length_take]; omega
  calc (l.take t ++ [l.getD t d]).drop t
      = (l.take t ++ [l.getD t d]).drop (l.take t).length := by rw [h1]
    _ = [l.getD t d] := List.drop_left _ _

theorem dim1_colTokens (T : List (List ℕ)) (hT : T ≠ []) :
    dim1 (colTokens T) = 1 := by
  cases T with
  | nil => exact absurd rfl hT
  | cons t ts => rfl

theorem dim1_colMem (mem : SeqT) (hm : mem ≠ []) :
    dim1 (colMem mem) = 1 := by
  cases mem with
  | nil => exact absurd rfl hm
  | cons v vs => rfl

theorem colMem_length (mem : SeqT) : (colMem mem).length = mem.length := by
  simp [colMem]

theorem colTokens_append (a b : List (List ℕ)) :
    colTokens (a ++ b) = colTokens a ++ colTokens b := by
  simp [colTokens]

theorem embItem_length (D : TransformerDecoder) (T : List (List ℕ)) :
    (embItem D T).length = T.length := by
  rw [embItem, posMap_length]

theorem embItem_getD (D : TransformerDecoder) (T : List (List ℕ)) (t : ℕ)
    (ht : t < T.length) :
    (embItem D T).getD t [] = D.embed (T.getD t []) t := by
  rw [embItem, posMap_getD _ 0 t T [] [] ht, Nat.zero_add]

theorem embItem_take (D : TransformerDecoder) (T : List (List ℕ)) (s : ℕ) :
    (embItem D T).take s = embItem D (T.take s) := by
  rw [embItem, embItem, posMap_take]

/-- One example's full decoder-stack run: the layer loop on that example's
embedded target sequence, with that example's self- and cross-attention
biases and no incremental caches. -/
def itemRun (D : TransformerDecoder) (S T : List (List ℕ)) (mem : SeqT) :
    SeqT × List SeqT :=
  stackItem mem (some (dbItem D.word_padding_idx (T.map wordId)))
    (some (ebItem D.word_padding_idx (S.map wordId)))
    D.layer_stack none (embItem D T)

/-- On a batch-1 call with a fresh state, the decoder's layer loop is the
per-example loop on the single example. -/
theorem coreRun_col_fresh (D : TransformerDecoder) (S T : List (List ℕ))
    (mem : SeqT) (hS : S ≠ []) (hT : T ≠ []) (hmem : mem ≠ []) :
    coreRun D (colTokens T) (colMem mem) ⟨colTokens S, none, none⟩ =
      runStack [mem] (some [dbItem D.word_padding_idx (T.map wordId)])
        (some [ebItem D.word_padding_idx (S.map wordId)])
        D.layer_stack none [embItem D T] := by
  have hembne : embItem D T ≠ [] := by
    intro h
    have hl := congrArg List.length h
    rw [embItem_length] at hl
    simp at hl
    exact hT hl
  rw [coreRun]
  rw [show colMem mem = mem.map (fun v => [v]) from rfl, transpose01_col mem hmem]
  rw [tgtWordsOf_col T hT, decoderBias_singleton]
  rw [srcWords_col S hS, encDecBias_singleton]
  rw [show embSliced D (colTokens T) ⟨colTokens S, none, none⟩ =
      embedTokens D (colTokens T) from rfl, embedTokens_col]
  rw [transpose01_col _ hembne]

/-- A successful batch-1 decoder call on a fresh state, in per-example form:
outputs are the per-example stack run mapped through the final layer norm, and
the new state stores the supplied tokens and the per-example caches. -/
theorem forward_col_fresh (D : TransformerDecoder) (S T : List (List ℕ))
    (mem : SeqT) (hS : S ≠ []) (hT : T ≠ []) (hm : mem.length = S.length) :
    D.forward (colTokens T) (colMem mem)
        (.transformer ⟨colTokens S, none, none⟩) =
      .ok (((itemRun D S T mem).1.map D.layer_norm).map (fun v => [v]),
        ⟨colTokens S, some (colTokens T),
          some ((itemRun D S T mem).2.map (fun c => [c]))⟩,
        ⟨fwdAttn D (colTokens T) (colMem mem) ⟨colTokens S, none, none⟩,
          if D._copy then
            some (fwdAttn D (colTokens T) (colMem mem) ⟨colTokens S, none, none⟩)
          else none⟩) := by
  have hmem : mem ≠ [] := by
    intro h; rw [h] at hm; simp at hm; exact hS (List.length_eq_zero.mp hm.symm)
  have hsw : srcWords ⟨colTokens S, none, none⟩ = [S.map wordId] :=
    srcWords_col S hS
  have c1 : dim1 (colTokens T) = dim1 (colMem mem) := by
    rw [dim1_colTokens T hT, dim1_colMem mem hmem]
  have c2 : (tgtWordsOf (colTokens T)).length = dim1 (colMem mem) := by
    rw [tgtWordsOf_col T hT, dim1_colMem mem hmem]
    rfl
  have c3 : dim1 (colMem mem) = (srcWords ⟨colTokens S, none, none⟩).length := by
    rw [dim1_colMem mem hmem, hsw]
    rfl
  have c4 : (colMem mem).length = dim1 (srcWords ⟨colTokens S, none, none⟩) := by
    rw [colMem_length, hsw]
    show mem.length = (S.map wordId).length
    rw [List.length_map]; exact hm
  rw [forward_transformer_ok D _ _ _ c1 c2 c3 c4]
  have hcore := coreRun_col_fresh D S T mem hS hT hmem
  have hrs := runStack_singleton mem
      (some (dbItem D.word_padding_idx (T.map wordId)))
      (some (ebItem D.word_padding_idx (S.map wordId)))
      D.layer_stack none (embItem D T) (Or.inl rfl)
  simp only [Option.map_some', Option.map_none'] at hrs
  have hout : fwdOutputs D (colTokens T) (colMem mem) ⟨colTokens S, none, none⟩ =
      ((itemRun D S T mem).1.map D.layer_norm).map (fun v => [v]) := by
    rw [fwdOutputs, hcore, hrs.1, itemRun]
    simp only [normB, List.map_cons, List.map_nil]
    rw [transpose01_single]
  have hstate : fwdState D (colTokens T) (colMem mem) ⟨colTokens S, none, none⟩ =
      (⟨colTokens S, some (colTokens T),
        some ((itemRun D S T mem).2.map (fun c => [c]))⟩ :
        TransformerDecoderState) := by
    rw [fwdState, hcore, hrs.2, itemRun]
    rfl
  rw [hout, hstate]

theorem embItem_snoc_drop (D : TransformerDecoder) (P : List (List ℕ))
    (tok : List ℕ) :
    (embItem D (P ++ [tok])).drop P.length = [D.embed tok P.length] := by
  rw [embItem, posMap_append, Nat.zero_add]
  have h1 : (posMap (fun p tk => D.embed tk p) 0 P).length = P.length :=
    posMap_length _ _ _
  calc (posMap (fun p tk => D.embed tk p) 0 P ++
        posMap (fun p tk => D.embed tk p) P.length [tok]).drop P.length
      = (posMap (fun p tk => D.embed tk p) 0 P ++
        posMap (fun p tk => D.embed tk p) P.length [tok]).drop
          (posMap (fun p tk => D.embed tk p) 0 P).length := by rw [h1]
    _ = posMap (fun p tk => D.embed tk p) P.length [tok] := List.drop_left _ _
    _ = [D.embed tok P.length] := rfl

/-- On a batch-1 call with a carried-over state, the layer loop is the
per-example loop on one new position with the per-example caches threaded. -/
theorem coreRun_col_incr (D : TransformerDecoder) (S P : List (List ℕ))
    (tok : List ℕ) (mem : SeqT) (cs : List SeqT)
    (hS : S ≠ []) (hmem : mem ≠ []) :
    coreRun D [[tok]] (colMem mem)
        ⟨colTokens S, some (colTokens P), some (cs.map (fun c => [c]))⟩ =
      runStack [mem] (some [dbItem D.word_padding_idx [wordId tok]])
        (some [ebItem D.word_padding_idx (S.map wordId)])
        D.layer_stack (some (cs.map (fun c => [c])))
        [[D.embed tok P.length]] := by
  have hemb : embSliced D [[tok]]
      ⟨colTokens S, some (colTokens P), some (cs.map (fun c => [c]))⟩ =
      [[D.embed tok P.length]] := by
    show (embedTokens D (colTokens P ++ [[tok]])).drop (colTokens P).length = _
    rw [show ([[tok]] : List (List (List ℕ))) = colTokens [tok] from rfl,
      ← colTokens_append, embedTokens_col]
    rw [show (colTokens P).length = P.length by simp [colTokens]]
    rw [← List.map_drop, embItem_snoc_drop]
    rfl
  rw [coreRun]
  rw [show colMem mem = mem.map (fun v => [v]) from rfl, transpose01_col mem hmem]
  rw [show ([[tok]] : List (List (List ℕ))) = colTokens [tok] from rfl]
  rw [tgtWordsOf_col [tok] (by simp), decoderBias_singleton]
  rw [show srcWords ⟨colTokens S, some (colTokens P),
        some (cs.map (fun c => [c]))⟩ =
      srcWords ⟨colTokens S, none, none⟩ from rfl]
  rw [srcWords_col S hS, encDecBias_singleton]
  rw [show colTokens [tok] = ([[tok]] : List (List (List ℕ))) from rfl, hemb]
  rw [show transpose01 ([[D.embed tok P.length]] : List SeqT) =
      [[D.embed tok P.length]] by simp [transpose01_single]]
  rfl

/-- One example's single-step stack run: the per-example loop on the one new
position `tok` at absolute position `t`, with per-layer caches `cs`. -/
def itemStep (D : TransformerDecoder) (S : List (List ℕ)) (tok : List ℕ)
    (t : ℕ) (mem : SeqT) (cs : List SeqT) : SeqT × List SeqT :=
  stackItem mem (some (dbItem D.word_padding_idx [wordId tok]))
    (some (ebItem D.word_padding_idx (S.map wordId)))
    D.layer_stack (some cs) [D.embed tok t]

/-- A successful batch-1 decoder call on a carried-over state, in per-example
form: the call embeds only the one new position, runs the per-example loop with
the cached per-layer inputs, and stores the extended history and caches. -/
theorem forward_col_incr (D : TransformerDecoder) (S P : List (List ℕ))
    (tok : List ℕ) (mem : SeqT) (cs : List SeqT)
    (hS : S ≠ []) (hm : mem.length = S.length)
    (hcs : cs.length = D.layer_stack.length) :
    D.forward [[tok]] (colMem mem)
        (.transformer ⟨colTokens S, some (colTokens P),
          some (cs.map (fun c => [c]))⟩) =
      .ok (((itemStep D S tok P.length mem cs).1.map D.layer_norm).map
          (fun v => [v]),
        ⟨colTokens S, some (colTokens (P ++ [tok])),
          some ((itemStep D S tok P.length mem cs).2.map (fun c => [c]))⟩,
        ⟨fwdAttn D [[tok]] (colMem mem) ⟨colTokens S, some (colTokens P),
            some (cs.map (fun c => [c]))⟩,
          if D._copy then
            some (fwdAttn D [[tok]] (colMem mem) ⟨colTokens S,
              some (colTokens P), some (cs.map (fun c => [c]))⟩)
          else none⟩) := by
  have hmem : mem ≠ [] := by
    intro h; rw [h] at hm; simp at hm; exact hS (List.length_eq_zero.mp hm.symm)
  have hsw : srcWords ⟨colTokens S, some (colTokens P),
      some (cs.map (fun c => [c]))⟩ = [S.map wordId] := by
    rw [show srcWords ⟨colTokens S, some (colTokens P),
        some (cs.map (fun c => [c]))⟩ =
      srcWords ⟨colTokens S, none, none⟩ from rfl]
    exact srcWords_col S hS
  have c1 : dim1 ([[tok]] : List (List (List ℕ))) = dim1 (colMem mem) := by
    rw [dim1_colMem mem hmem]; rfl
  have c2 : (tgtWordsOf ([[tok]] : List (List (List ℕ)))).length =
      dim1 (colMem mem) := by
    rw [dim1_colMem mem hmem]; rfl
  have c3 : dim1 (colMem mem) = (srcWords ⟨colTokens S, some (colTokens P),
      some (cs.map (fun c => [c]))⟩).length := by
    rw [dim1_colMem mem hmem, hsw]; rfl
  have c4 : (colMem mem).length = dim1 (srcWords ⟨colTokens S,
      some (colTokens P), some (cs.map (fun c => [c]))⟩) := by
    rw [colMem_length, hsw]
    show mem.length = (S.map wordId).length
    rw [List.length_map]; exact hm
  rw [forward_transformer_ok D _ _ _ c1 c2 c3 c4]
  have hcore := coreRun_col_incr D S P tok mem cs hS hmem
  have hrs := runStack_singleton mem
      (some (dbItem D.word_padding_idx [wordId tok]))
      (some (ebItem D.word_padding_idx (S.map wordId)))
      D.layer_stack (some cs) [D.embed tok P.length]
      (Or.inr ⟨cs, rfl, hcs⟩)
  simp only [Option.map_some'] at hrs
  have hout : fwdOutputs D [[tok]] (colMem mem) ⟨colTokens S,
      some (colTokens P), some (cs.map (fun c => [c]))⟩ =
      ((itemStep D S tok P.length mem cs).1.map D.layer_norm).map
        (fun v => [v]) := by
    rw [fwdOutputs, hcore, hrs.1, itemStep]
    simp only [normB, List.map_cons, List.map_nil]
    rw [transpose01_single]
  have hstate : fwdState D [[tok]] (colMem mem) ⟨colTokens S,
      some (colTokens P), some (cs.map (fun c => [c]))⟩ =
      (⟨colTokens S, some (colTokens (P ++ [tok])),
        some ((itemStep D S tok P.length mem cs).2.map (fun c => [c]))⟩ :
        TransformerDecoderState) := by
    rw [fwdState, hcore, hrs.2, itemStep]
    rw [show catTgt ⟨colTokens S, some (colTokens P),
        some (cs.map (fun c => [c]))⟩ [[tok]] =
      colTokens P ++ colTokens [tok] from rfl, ← colTokens_append]
    rfl
  rw [hout, hstate]

theorem forall₂_take_eq {α : Type} (s : ℕ) (a b : List (List α))
    (h : List.Forall₂ (fun x y => x.take s = y.take s) a b)
    (ha : ∀ c ∈ a, c.length = s) :
    a = b.map (·.take s) := by
  induction h with
  | nil => rfl
  | cons hxy htail ih =>
    rw [List.map_cons]
    congr 1
    · rw [← hxy]
      have hx := ha _ (List.mem_cons_self _ _)
      rw [List.take_of_length_le (le_of_eq hx)]
    · exact ih fun c hc => ha c (List.mem_cons_of_mem _ hc)

theorem map_wordId_length (T : List (List ℕ)) :
    (T.map wordId).length = T.length := List.length_map _ _

/-- The per-example full run on just the first token agrees exactly with
position 0 of the per-example full run on the whole sequence, caches included:
causal masking makes position 0 of the full run blind to every later token. -/
theorem itemRun_first (D : TransformerDecoder) (S T : List (List ℕ))
    (mem : SeqT) (hT : 0 < T.length) :
    (itemRun D S [T.getD 0 []] mem).1 = [(itemRun D S T mem).1.getD 0 []] ∧
    (itemRun D S [T.getD 0 []] mem).2 =
      (itemRun D S T mem).2.map (·.take 1) := by
  have hx1len : (embItem D [T.getD 0 []]).length = 1 := by
    rw [embItem_length]; rfl
  have hx2len : (embItem D T).length = T.length := embItem_length D T
  have hx : (embItem D [T.getD 0 []]).take 1 = (embItem D T).take 1 := by
    rw [embItem_take, embItem_take]
    congr 1
    rw [show ([T.getD 0 []] : List (List ℕ)).take 1 = [T.getD 0 []] from rfl]
    rw [show (1 : ℕ) = 0 + 1 from rfl, take_succ_getD T 0 ([] : List ℕ) hT]
    rfl
  have hpre := stackItem_prefix mem
    (some (ebItem D.word_padding_idx (S.map wordId)))
    (dbItem D.word_padding_idx ([T.getD 0 []].map wordId))
    (dbItem D.word_padding_idx (T.map wordId))
    D.layer_stack (embItem D [T.getD 0 []]) (embItem D T) 1 1 T.length
    hx1len hx2len (le_refl 1) hT hx
    (by intro q k hq hqk hk; omega)
    (by
      intro q k hq hqk hk
      exact dbItem_future_ne _ _ q k (by rw [map_wordId_length]; omega) hqk
        (by rw [map_wordId_length]; omega))
    (by
      intro q k hq hkq
      have hq0 : q = 0 := by omega
      have hk0 : k = 0 := by omega
      subst hq0 hk0
      rw [dbItem_zero_iff _ _ 0 0 (by simp) (by simp),
        dbItem_zero_iff _ _ 0 0 (by rw [map_wordId_length]; omega)
          (by rw [map_wordId_length]; omega)]
      rw [show ([T.getD 0 []].map wordId).getD 0 0 = wordId (T.getD 0 [])
        from rfl]
      rw [getD_map_lt wordId T 0 0 ([] : List ℕ) hT])
  have hout1len : (itemRun D S [T.getD 0 []] mem).1.length = 1 := by
    rw [itemRun, stackItem_fst_length, hx1len]
  have hout2len : (itemRun D S T mem).1.length = T.length := by
    rw [itemRun, stackItem_fst_length, hx2len]
  constructor
  · have h1 : (itemRun D S [T.getD 0 []] mem).1 =
        (itemRun D S [T.getD 0 []] mem).1.take 1 := by
      rw [List.take_of_length_le (le_of_eq hout1len)]
    rw [h1, itemRun, itemRun]
    rw [hpre.1]
    rw [show (1 : ℕ) = 0 + 1 from rfl,
      take_succ_getD _ 0 ([] : Vec) (by
        rw [stackItem_fst_length, hx2len]; omega)]
    rfl
  · rw [itemRun, itemRun]
    apply forall₂_take_eq 1 _ _ hpre.2
    intro c hc
    rw [stackItem_saved_length_none _ _ _ _ _ c hc, hx1len]

/-- The per-example incremental step `t ≥ 0` with the full run's cached first
`t` normalized inputs reproduces exactly position `t` of the full run — and
extends every cache by one position — provided no target token is the padding
token (the full run's bias masks padding keys, the incremental call has no
bias). -/
theorem itemStep_exact (D : TransformerDecoder) (S T : List (List ℕ))
    (mem : SeqT) (t : ℕ) (ht : t < T.length)
    (hpad : ∀ k, k < T.length → wordId (T.getD k []) ≠ D.word_padding_idx) :
    itemStep D S (T.getD t []) t mem ((itemRun D S T mem).2.map (·.take t)) =
      ([(itemRun D S T mem).1.getD t []],
        (itemRun D S T mem).2.map (·.take (t + 1))) := by
  have hmask : ∀ k, k < T.length →
      ((rowFor (some (dbItem D.word_padding_idx (T.map wordId))) t).getD k 0 = 0
        ↔ k ≤ t) := by
    intro k hk
    rw [dbItem_zero_iff _ _ t k (by rw [map_wordId_length]; omega)
      (by rw [map_wordId_length]; omega)]
    rw [getD_map_lt wordId T k 0 ([] : List ℕ) hk]
    constructor
    · rintro ⟨-, h⟩; exact h
    · intro h; exact ⟨hpad k hk, h⟩
  have hstep := stackItem_step mem
    (some (ebItem D.word_padding_idx (S.map wordId))) D.layer_stack
    (dbItem D.word_padding_idx (T.map wordId)) (embItem D T) t T.length
    (embItem_length D T) ht hmask
    (Or.inr ⟨ebItem D.word_padding_idx (S.map wordId), rfl, rfl⟩)
    (some (dbItem D.word_padding_idx [wordId (T.getD t [])]))
  rw [itemStep, itemRun]
  rw [show D.embed (T.getD t []) t = (embItem D T).getD t []
    from (embItem_getD D T t ht).symm]
  exact Prod.ext hstep.1 hstep.2

theorem drop_eq_getD_cons {α : Type} (d : α) (l : List α) (n : ℕ)
    (h : n < l.length) :
    l.drop n = l.getD n d :: l.drop (n + 1) := by
  induction l generalizing n with
  | nil => simp at h
  | cons a as ih =>
    cases n with
    | zero => rfl
    | succ m =>
      show as.drop m = as.getD m d :: as.drop (m + 1)
      exact ih m (by simpa using h)

theorem incrRun_cons_ok (D : TransformerDecoder) (mb : List SeqT)
    (tok : List ℕ) (rest : List (List ℕ)) (s : TransformerDecoderState)
    (out : List SeqT) (s' : TransformerDecoderState) (ats : Attns)
    (h : D.forward [[tok]] mb (.transformer s) = .ok (out, s', ats)) :
    incrRun D mb (tok :: rest) s = (incrRun D mb rest s').map (out :: ·) := by
  rw [incrRun, h]

/-- Threading: from step `t ≥ 1` on, with the state invariant (history =
first `t` tokens, caches = full run's caches cut to `t` positions), the
remaining incremental calls reproduce positions `t, t+1, …` of the full run. -/
theorem incrRun_steps (D : TransformerDecoder) (S T : List (List ℕ))
    (mem : SeqT) (hS : S ≠ []) (hm : mem.length = S.length)
    (hpad : ∀ k, k < T.length → wordId (T.getD k []) ≠ D.word_padding_idx) :
    ∀ (rest : List (List ℕ)) (t : ℕ), 0 < t → t + rest.length = T.length →
      rest = T.drop t →
      incrRun D (colMem mem) rest
        ⟨colTokens S, some (colTokens (T.take t)),
          some (((itemRun D S T mem).2.map (·.take t)).map (fun c => [c]))⟩ =
      some ((((itemRun D S T mem).1.map D.layer_norm).drop t).map
        (fun v => [[v]])) := by
  have hlen : ((itemRun D S T mem).1.map D.layer_norm).length = T.length := by
    rw [List.length_map, itemRun, stackItem_fst_length, embItem_length]
  intro rest
  induction rest with
  | nil =>
    intro t ht0 htl hdrop
    rw [incrRun]
    rw [List.drop_eq_nil_of_le (by rw [hlen]; simp at htl; omega)]
    rfl
  | cons r rs ih =>
    intro t ht0 htl hdrop
    have htT : t < T.length := by simp at htl; omega
    rw [drop_eq_getD_cons ([] : List ℕ) T t htT] at hdrop
    injection hdrop with hr hrs
    subst hr
    have hcs_len : ((itemRun D S T mem).2.map (·.take t)).length =
        D.layer_stack.length := by
      rw [List.length_map, itemRun, stackItem_saved_count]
    have hfwd := forward_col_incr D S (T.take t) (T.getD t []) mem
      ((itemRun D S T mem).2.map (·.take t)) hS hm hcs_len
    rw [incrRun_cons_ok D (colMem mem) (T.getD t []) rs _ _ _ _ hfwd]
    rw [show (T.take t).length = t from by rw [List.length_take]; omega]
    rw [itemStep_exact D S T mem t htT hpad]
    rw [← take_succ_getD T t ([] : List ℕ) htT]
    rw [ih (t + 1) (by omega) (by simp at htl ⊢; omega) hrs]
    rw [Option.map_some']
    rw [drop_eq_getD_cons ([] : Vec) ((itemRun D S T mem).1.map D.layer_norm) t
      (by rw [hlen]; omega)]
    rw [List.map_cons]
    rw [getD_map_lt D.layer_norm (itemRun D S T mem).1 t ([] : Vec) ([] : Vec)
      (by rw [itemRun, stackItem_fst_length, embItem_length]; omega)]
    rfl

/-- Feeding a batch-1 example's target tokens one at a time from a fresh state
produces, per step, exactly the corresponding position of the per-example full
run (final layer norm applied), provided no target token is the padding token. -/
theorem incrRun_full (D : TransformerDecoder) (S T : List (List ℕ))
    (mem : SeqT) (hS : S ≠ []) (hT : T ≠ []) (hm : mem.length = S.length)
    (hpad : ∀ k, k < T.length → wordId (T.getD k []) ≠ D.word_padding_idx) :
    incrRun D (colMem mem) T ⟨colTokens S, none, none⟩ =
      some (((itemRun D S T mem).1.map D.layer_norm).map (fun v => [[v]])) := by
  have hflen : (itemRun D S T mem).1.length = T.length := by
    rw [itemRun, stackItem_fst_length, embItem_length]
  cases T with
  | nil => exact absurd rfl hT
  | cons t0 ts =>
    have h0lt : 0 < (itemRun D S (t0 :: ts) mem).1.length := by
      rw [hflen]; simp
    have hfwd0 := forward_col_fresh D S [t0] mem hS (by simp) hm
    rw [incrRun_cons_ok D (colMem mem) t0 ts _ _ _ _ hfwd0]
    have hfirst := itemRun_first D S (t0 :: ts) mem (by simp)
    simp only [List.getD_cons_zero] at hfirst
    rw [hfirst.1, hfirst.2]
    rw [show ([t0] : List (List ℕ)) = (t0 :: ts).take 1 from rfl]
    rw [incrRun_steps D S (t0 :: ts) mem hS hm hpad ts 1 (by omega)
      (by simp [Nat.add_comm]) rfl]
    rw [Option.map_some']
    have hsplit := drop_eq_getD_cons ([] : Vec)
      ((itemRun D S (t0 :: ts) mem).1.map D.layer_norm) 0
      (by rw [List.length_map, hflen]; simp)
    rw [List.drop_zero] at hsplit
    rw [getD_map_lt D.layer_norm (itemRun D S (t0 :: ts) mem).1 0 ([] : Vec)
      ([] : Vec) h0lt] at hsplit
    conv_rhs => rw [hsplit]
    rw [List.map_cons]
    rfl

/-- C1 (amended): for a batch-1 source/target pair in which no target token is
the padding token, feeding the decoder the target tokens one at a time while
threading the returned state yields, per step, outputs exactly equal to the
corresponding positions of a single non-incremental forward call over the full
target sequence with a fresh initial state (dropout disabled). -/
theorem C1_incremental_equals_full (D : TransformerDecoder)
    (S T : List (List ℕ)) (mem : SeqT)
    (hS : S ≠ []) (hT : T ≠ []) (hm : mem.length = S.length)
    (hpad : ∀ tok ∈ T, wordId tok ≠ D.word_padding_idx) :
    ∃ Y st ats,
      D.forward (colTokens T) (colMem mem)
          (.transformer (D.init_decoder_state (colTokens S) (colMem mem) ())) =
        .ok (Y, st, ats) ∧
      incrRun D (colMem mem) T
          (D.init_decoder_state (colTokens S) (colMem mem) ()) =
        some (Y.map (fun row => [row])) := by
  have hpad' : ∀ k, k < T.length →
      wordId (T.getD k []) ≠ D.word_padding_idx := by
    intro k hk
    rw [List.getD_eq_getElem _ _ hk]
    exact hpad _ (List.getElem_mem _)
  refine ⟨((itemRun D S T mem).1.map D.layer_norm).map (fun v => [v]), _, _,
    forward_col_fresh D S T mem hS hT hm, ?_⟩
  rw [show D.init_decoder_state (colTokens S) (colMem mem) () =
      (⟨colTokens S, none, none⟩ : TransformerDecoderState) from rfl]
  rw [incrRun_full D S T mem hS hT hm hpad']
  simp only [List.map_map]
  rfl

theorem C1_incremental_equals_full_witness :
    ([[3]] : List (List ℕ)) ≠ [] ∧ ([[1], [2]] : List (List ℕ)) ≠ [] ∧
    ([[5]] : SeqT).length = ([[3]] : List (List ℕ)).length ∧
    (∀ tok ∈ ([[1], [2]] : List (List ℕ)),
      wordId tok ≠ D0.word_padding_idx) ∧
    (∃ Y st ats,
      D0.forward (colTokens [[1], [2]]) (colMem [[5]])
          (.transformer (D0.init_decoder_state (colTokens [[3]])
            (colMem [[5]]) ())) = .ok (Y, st, ats) ∧
      incrRun D0 (colMem [[5]]) [[1], [2]]
          (D0.init_decoder_state (colTokens [[3]]) (colMem [[5]]) ()) =
        some (Y.map (fun row => [row]))) :=
  ⟨by decide, by decide, by decide, by decide,
    C1_incremental_equals_full D0 [[3]] [[1], [2]] [[5]]
      (by decide) (by decide) (by decide) (by decide)⟩

/-- C1 counterexample: with a padding token inside the target sequence the
incremental run does NOT reproduce the full run — the full run's self-attention
bias masks the padding key, while the incremental steps (which drop the bias)
attend to it.  Here (padding index 0, tokens `1, 0`) the full call's position-1
output is `[12]` but the incremental step-1 output is `[11]`. -/
theorem C1_counterexample :
    ∃ Y st ats,
      D0.forward (colTokens [[1], [0]]) (colMem [[5]])
          (.transformer (D0.init_decoder_state (colTokens [[3]])
            (colMem [[5]]) ())) = .ok (Y, st, ats) ∧
      incrRun D0 (colMem [[5]]) [[1], [0]]
          (D0.init_decoder_state (colTokens [[3]]) (colMem [[5]]) ()) ≠
        some (Y.map (fun row => [row])) := by
  refine ⟨((itemRun D0 [[3]] [[1], [0]] [[5]]).1.map D0.layer_norm).map
      (fun v => [v]), _, _,
    forward_col_fresh D0 [[3]] [[1], [0]] [[5]] (by decide) (by decide)
      (by decide), ?_⟩
  have hfull : (itemRun D0 [[3]] [[1], [0]] [[5]]).1 = [[14], [12]] := by
    norm_num [itemRun, stackItem, layerItem, attnSeq, posMap, mCtx, mWgt, mZ,
      rowFor, embItem, dbItem, ebItem, localMat, A0, L0, D0, List.range_succ,
      padFlag, wordId]
  have hincr : incrRun D0 (colMem [[5]]) [[1], [0]]
      (D0.init_decoder_state (colTokens [[3]]) (colMem [[5]]) ()) =
      some [[[[14]]], [[[11]]]] := by
    norm_num [incrRun, TransformerDecoder.forward, fwdOutputs, fwdState,
      fwdAttn, coreRun, runStack, DecoderLayer.forward,
      MultiheadAttention.forward, attnSeq, attnWSeq, posMap, mCtx, mWgt, mZ,
      rowFor, normB, addB, transpose01, dim1, wordId, padFlag, srcWords,
      tgtWordsOf, catTgt, embSliced, embedTokens, encDecBias, decoderBias,
      localMat, getLocalMask, colTokens, colMem,
      TransformerDecoderState.update_state,
      TransformerDecoder.init_decoder_state, A0, L0, D0, List.range_succ]
  rw [hincr, hfull]
  simp only [D0, List.map_cons, List.map_nil, id_eq]
  intro h
  norm_num at h

/-- Batch item `b` of an optional batched bias tensor. -/
def biasItem (bias : Option (List Mat)) (b : ℕ) : Option Mat :=
  match bias with
  | none => none
  | some bs => some (bs.getD b [])

theorem getD_zip {α β : Type} (as : List α) (bs : List β) (b : ℕ)
    (da : α) (db : β) (ha : b < as.length) (hb : b < bs.length) :
    (as.zip bs).getD b (da, db) = (as.getD b da, bs.getD b db) := by
  rw [List.getD_eq_getElem _ _ (by rw [List.length_zip]; omega),
    List.getElem_zip, List.getD_eq_getElem _ _ ha, List.getD_eq_getElem _ _ hb]

theorem normB_getD (f : Vec → Vec) (x : List SeqT) (b : ℕ) (hb : b < x.length) :
    (normB f x).getD b [] = (x.getD b []).map f :=
  getD_map_lt _ _ _ _ [] hb

theorem addB_getD (y x : List SeqT) (b : ℕ) (hy : b < y.length)
    (hx : b < x.length) :
    (addB y x).getD b [] =
      List.zipWith (List.zipWith (· + ·)) (y.getD b []) (x.getD b []) :=
  getD_zipWith_lt _ _ _ b [] [] [] hy hx

/-- Batch item `b` of the batched attention output is the per-example
attention of that item's query/key sequences under that item's bias. -/
theorem maForward_fst_getD (A : MultiheadAttention) (x memory : List SeqT)
    (nh : ℕ) (bias : Option (List Mat)) (b : ℕ)
    (hb : b < x.length) (hm : x.length ≤ memory.length)
    (hbias : ∀ bs, bias = some bs → x.length ≤ bs.length) :
    (A.forward x memory nh bias).1.getD b [] =
      attnSeq A (x.getD b []) (memory.getD b []) (biasItem bias b) := by
  cases bias with
  | none =>
    show ((x.zip (memory.zip (List.replicate x.length none))).map
      fun p => attnSeq A p.1 p.2.1 p.2.2).getD b [] = _
    rw [getD_map_lt _ _ _ _ (([] : SeqT), (([] : SeqT), (none : Option Mat)))
      (by rw [List.length_zip, List.length_zip, List.length_replicate]; omega)]
    rw [getD_zip _ _ b ([] : SeqT) (([] : SeqT), (none : Option Mat)) hb
      (by rw [List.length_zip, List.length_replicate]; omega)]
    rw [getD_zip _ _ b ([] : SeqT) (none : Option Mat) (by omega)
      (by rw [List.length_replicate]; omega)]
    rw [getD_replicate_lt _ _ _ _ (by omega)]
    rfl
  | some bs =>
    have hbs := hbias bs rfl
    show ((x.zip (memory.zip (bs.map some))).map
      fun p => attnSeq A p.1 p.2.1 p.2.2).getD b [] = _
    rw [getD_map_lt _ _ _ _ (([] : SeqT), (([] : SeqT), (none : Option Mat)))
      (by rw [List.length_zip, List.length_zip, List.length_map]; omega)]
    rw [getD_zip _ _ b ([] : SeqT) (([] : SeqT), (none : Option Mat)) hb
      (by rw [List.length_zip, List.length_map]; omega)]
    rw [getD_zip _ _ b ([] : SeqT) (none : Option Mat) (by omega)
      (by rw [List.length_map]; omega)]
    rw [getD_map_lt some bs b (none : Option Mat) ([] : Mat) (by omega)]
    rfl

theorem map_posMap {α β γ : Type} (g : β → γ) (f : ℕ → α → β) (i : ℕ)
    (l : List α) :
    (posMap f i l).map g = posMap (fun p a => g (f p a)) i l := by
  induction l generalizing i with
  | nil => rfl
  | cons a as ih => simp [posMap, ih]

theorem posMap_congr {α β : Type} (f g : ℕ → α → β) (i : ℕ) (l : List α)
    (h : ∀ p a, a ∈ l → f p a = g p a) : posMap f i l = posMap g i l := by
  induction l generalizing i with
  | nil => rfl
  | cons a as ih =>
    rw [posMap, posMap, h i a (List.mem_cons_self a as)]
    rw [ih (i + 1) fun p a ha => h p a (List.mem_cons_of_mem _ ha)]

/-- Batch item `b` of the batched decoder layer's output (no incremental
cache) is the per-example layer on that item's sequences and bias rows. -/
theorem decLayer_fst_getD (L : DecoderLayer) (x enc : List SeqT)
    (sb eb : Option (List Mat)) (b : ℕ)
    (hb : b < x.length) (henc : x.length ≤ enc.length)
    (hsb : ∀ bs, sb = some bs → x.length ≤ bs.length)
    (heb : ∀ bs, eb = some bs → x.length ≤ bs.length) :
    (L.forward x enc sb eb none).1.getD b [] =
      (layerItem L (x.getD b []) (enc.getD b []) (biasItem sb b)
        (biasItem eb b) none).1 := by
  rw [DecoderLayer.forward_fst_eq]
  show (layerCore L x enc eb (normB L.ma_l1_prenorm x) sb).getD b [] = _
  simp only [layerCore]
  set y1 := (L.ma_l1.forward (normB L.ma_l1_prenorm x)
    (normB L.ma_l1_prenorm x) L.num_heads sb).1 with hy1def
  set x1 := addB y1 x with hx1def
  set y2 := (L.ma_l2.forward (normB L.ma_l2_prenorm x1) enc L.num_heads eb).1
    with hy2def
  set x2 := addB y2 x1 with hx2def
  have hnxlen : (normB L.ma_l1_prenorm x).length = x.length := normB_length _ _
  have hy1len : y1.length = x.length := by
    rw [hy1def]
    exact maForward_fst_len _ _ _ _ _ x.length hnxlen (by rw [hnxlen]) hsb
  have hx1len : x1.length = x.length := by
    rw [hx1def, addB_len, hy1len]; exact Nat.min_self _
  have hnx2len : (normB L.ma_l2_prenorm x1).length = x.length := by
    rw [normB_length, hx1len]
  have hy2len : y2.length = x.length := by
    rw [hy2def]
    exact maForward_fst_len _ _ _ _ _ x.length hnx2len henc heb
  have hx2len : x2.length = x.length := by
    rw [hx2def, addB_len, hy2len, hx1len]; exact Nat.min_self _
  have hnxb : (normB L.ma_l1_prenorm x).getD b [] =
      (x.getD b []).map L.ma_l1_prenorm := normB_getD _ _ _ hb
  have hy1b : y1.getD b [] =
      attnSeq L.ma_l1 ((x.getD b []).map L.ma_l1_prenorm)
        ((x.getD b []).map L.ma_l1_prenorm) (biasItem sb b) := by
    rw [hy1def, maForward_fst_getD _ _ _ _ _ b (by rw [hnxlen]; omega)
      (by rw [hnxlen]) (fun bs h => by rw [hnxlen]; exact hsb bs h), hnxb]
  have hx1b : x1.getD b [] =
      List.zipWith (List.zipWith (· + ·)) (y1.getD b []) (x.getD b []) := by
    rw [hx1def]
    exact addB_getD _ _ b (by omega) hb
  have hnx2b : (normB L.ma_l2_prenorm x1).getD b [] =
      (x1.getD b []).map L.ma_l2_prenorm :=
    normB_getD _ _ _ (by rw [hx1len]; omega)
  have hy2b : y2.getD b [] =
      attnSeq L.ma_l2 ((x1.getD b []).map L.ma_l2_prenorm) (enc.getD b [])
        (biasItem eb b) := by
    rw [hy2def, maForward_fst_getD _ _ _ _ _ b (by rw [hnx2len]; omega)
      (by rw [hnx2len]; exact henc) (fun bs h => by rw [hnx2len]; exact heb bs h),
      hnx2b]
  have hx2b : x2.getD b [] =
      List.zipWith (List.zipWith (· + ·)) (y2.getD b []) (x1.getD b []) := by
    rw [hx2def]
    exact addB_getD _ _ b (by omega) (by omega)
  rw [addB_getD _ _ b
    (by rw [normB_length, normB_length, hx2len]; omega) (by omega)]
  rw [normB_getD _ _ _ (by rw [normB_length, hx2len]; omega)]
  rw [normB_getD _ _ _ (by rw [hx2len]; omega)]
  rw [hx2b, hy2b, hx1b, hy1b]
  rfl

/-- Batch item `b` of the batched layer loop (fresh state) is the per-example
layer loop on that item, with that item's bias rows. -/
theorem runStack_fst_getD (enc : List SeqT) (sb eb : Option (List Mat))
    (Ls : List DecoderLayer) (out : List SeqT) (b B t : ℕ)
    (hout : out.length = B) (houti : ∀ it ∈ out, it.length = t)
    (hb : b < B) (henc : B ≤ enc.length)
    (hsb : ∀ bs, sb = some bs → B ≤ bs.length)
    (heb : ∀ bs, eb = some bs → B ≤ bs.length) :
    (runStack enc sb eb Ls none out).1.getD b [] =
      (stackItem (enc.getD b []) (biasItem sb b) (biasItem eb b) Ls none
        (out.getD b [])).1 := by
  induction Ls generalizing out with
  | nil => rfl
  | cons L Ls ih =>
    have hlayer := DecoderLayer.forward_shape L out enc sb eb none B t
      hout houti henc hsb heb (fun pv h => by cases h)
    have heq : (runStack enc sb eb (L :: Ls) none out).1 =
        (runStack enc sb eb Ls none ((L.forward out enc sb eb none).1)).1 := by
      rw [runStack]
      simp only [Option.map_none']
    rw [heq, ih _ hlayer.1 hlayer.2]
    rw [decLayer_fst_getD L out enc sb eb b (by omega) (by rw [hout]; exact henc)
      (fun bs h => by rw [hout]; exact hsb bs h)
      (fun bs h => by rw [hout]; exact heb bs h)]
    rfl

/-- Batch item `b` of the batched decoder self-attention bias is the
per-example bias built from that item's word row. -/
theorem decoderBias_getD (pid : ℕ) (W : List (List ℕ)) (b : ℕ)
    (hb : b < W.length) (hrow : (W.getD b []).length = dim1 W) :
    (decoderBias pid W).getD b [] = dbItem pid (W.getD b []) := by
  simp only [decoderBias, getLocalMask]
  rw [flatten_replicate_singleton]
  rw [getD_zipWith_lt _ _ _ b ([] : Mat) ([] : Mat) ([] : Mat)
    (by simp; omega) (by rw [List.length_replicate]; omega)]
  rw [List.map_map]
  rw [getD_map_lt _ _ _ ([] : Mat) ([] : List ℕ) hb]
  rw [getD_replicate_lt _ _ _ _ hb]
  show List.zipWith _ ((List.replicate (dim1 W)
    [(W.getD b []).map (padFlag pid)]).flatten) (localMat (dim1 W)) = _
  rw [flatten_replicate_singleton]
  rw [dbItem, hrow]

/-- Batch item `b` of the batched cross-attention bias is the per-example
broadcast bias row built from that item's source words. -/
theorem encDecBias_getD (pid : ℕ) (sw : List (List ℕ)) (b : ℕ)
    (hb : b < sw.length) :
    (encDecBias pid sw).getD b [] = ebItem pid (sw.getD b []) := by
  simp only [encDecBias]
  rw [List.map_map]
  rw [getD_map_lt _ _ _ ([] : Mat) ([] : List ℕ) hb]
  rfl

/-- Batch item `b` of the batched embedded target tensor is the per-example
embedded sequence of that item's token column. -/
theorem embedTokens_getD_item (D : TransformerDecoder)
    (tgt : List (List (List ℕ))) (B b : ℕ)
    (hrect : ∀ row ∈ tgt, row.length = B) (hb : b < B) :
    (embedTokens D tgt).map (fun r => r.getD b default) =
      embItem D (tgt.map (fun r => r.getD b default)) := by
  rw [embedTokens, embItem, map_posMap, posMap_map]
  apply posMap_congr
  intro p row hrow
  exact getD_map_lt _ _ _ _ default (by rw [hrect row hrow]; omega)


/-- Per-example and shape reduction of a fresh-state batched core run: batch
item `b` of the decoder's layer loop is the per-example loop on that item's
token column, bias rows and memory column; the loop also keeps the batch size
and per-example sequence lengths. -/
theorem coreRun_fresh_getD (D : TransformerDecoder)
    (src tgt : List (List (List ℕ))) (mem : List SeqT) (B b : ℕ)
    (hsrcne : src ≠ []) (hsrcR : ∀ row ∈ src, row.length = B)
    (htne : tgt ≠ []) (htR : ∀ row ∈ tgt, row.length = B)
    (hmemne : mem ≠ []) (hmemR : ∀ m ∈ mem, m.length = B) (hb : b < B) :
    (coreRun D tgt mem ⟨src, none, none⟩).1.getD b [] =
      (stackItem (mem.map (fun r => r.getD b default))
        (some (dbItem D.word_padding_idx ((tgtWordsOf tgt).getD b [])))
        (some (ebItem D.word_padding_idx
          ((srcWords ⟨src, none, none⟩).getD b [])))
        D.layer_stack none
        (embItem D (tgt.map (fun r => r.getD b default)))).1 ∧
    (coreRun D tgt mem ⟨src, none, none⟩).1.length = B ∧
    ∀ it ∈ (coreRun D tgt mem ⟨src, none, none⟩).1, it.length = tgt.length := by
  have hd1t : dim1 tgt = B := dim1_eq_of_items tgt B htne htR
  have hd1src : dim1 src = B := dim1_eq_of_items src B hsrcne hsrcR
  have hd1mem : dim1 mem = B := dim1_eq_of_items mem B hmemne hmemR
  have hembitems : ∀ r ∈ embedTokens D tgt, r.length = B := by
    intro r hr
    obtain ⟨p, row, hrow, rfl⟩ := posMap_mem _ _ _ r hr
    rw [List.length_map]
    exact htR row hrow
  have hembne : embedTokens D tgt ≠ [] := by
    intro h
    have hl := congrArg List.length h
    rw [embedTokens, posMap_length] at hl
    simp at hl
    exact htne hl
  have hd1emb : dim1 (embedTokens D tgt) = B :=
    dim1_eq_of_items _ B hembne hembitems
  have hTlen : (transpose01 (embedTokens D tgt)).length = B := by
    rw [transpose01_length, hd1emb]
  have hTitems : ∀ r ∈ transpose01 (embedTokens D tgt),
      r.length = tgt.length := by
    intro r hr
    rw [transpose01_mem_length _ r hr, embedTokens, posMap_length]
  have hswlen : (srcWords ⟨src, none, none⟩).length = B := by
    rw [srcWords_length]
    exact hd1src
  have hsb : ∀ bs, (some (decoderBias D.word_padding_idx (tgtWordsOf tgt))) =
      some bs → B ≤ bs.length := by
    intro bs h
    obtain rfl := Option.some.inj h
    rw [decoderBias_length, tgtWordsOf_length, hd1t]
  have heb : ∀ bs, (some (encDecBias D.word_padding_idx
      (srcWords ⟨src, none, none⟩))) = some bs → B ≤ bs.length := by
    intro bs h
    obtain rfl := Option.some.inj h
    rw [encDecBias_length, hswlen]
  have hcore : coreRun D tgt mem ⟨src, none, none⟩ =
      runStack (transpose01 mem)
        (some (decoderBias D.word_padding_idx (tgtWordsOf tgt)))
        (some (encDecBias D.word_padding_idx (srcWords ⟨src, none, none⟩)))
        D.layer_stack none (transpose01 (embedTokens D tgt)) := rfl
  have hencB : B ≤ (transpose01 mem).length := by
    rw [transpose01_length, hd1mem]
  refine ⟨?_, ?_, ?_⟩
  · rw [hcore]
    rw [runStack_fst_getD _ _ _ _ _ b B tgt.length hTlen hTitems hb hencB
      hsb heb]
    rw [show biasItem (some (decoderBias D.word_padding_idx
        (tgtWordsOf tgt))) b =
      some ((decoderBias D.word_padding_idx (tgtWordsOf tgt)).getD b [])
      from rfl]
    rw [show biasItem (some (encDecBias D.word_padding_idx
        (srcWords ⟨src, none, none⟩))) b =
      some ((encDecBias D.word_padding_idx
        (srcWords ⟨src, none, none⟩)).getD b []) from rfl]
    rw [decoderBias_getD _ _ b (by rw [tgtWordsOf_length, hd1t]; omega)
      (by
        rw [tgtWordsOf_row_length tgt b (by rw [hd1t]; omega),
          tgtWordsOf_dim1 tgt (by rw [hd1t]; omega)])]
    rw [encDecBias_getD _ _ b (by rw [hswlen]; omega)]
    rw [transpose01_getD mem b (by rw [hd1mem]; omega)]
    rw [transpose01_getD (embedTokens D tgt) b (by rw [hd1emb]; omega)]
    rw [embedTokens_getD_item D tgt B b htR hb]
  · rw [hcore]
    exact (runStack_shape _ _ _ _ none _ B tgt.length hTlen hTitems hencB
      hsb heb (Or.inl rfl)).1
  · rw [hcore]
    exact (runStack_shape _ _ _ _ none _ B tgt.length hTlen hTitems hencB
      hsb heb (Or.inl rfl)).2

/-- C9: causal masking as a two-run property — for every non-incremental
decoder forward call (fresh state, dropout disabled) on a batch of any size,
and every position `i`, two runs whose target tensors have the same length and
agree at positions `0..i` (so they differ only in token values at positions
strictly greater than `i`) produce exactly the same outputs at position `i`. -/
theorem C9_causal_invariance (D : TransformerDecoder)
    (s : TransformerDecoderState) (tgt₁ tgt₂ : List (List (List ℕ)))
    (mem : List SeqT) (i B : ℕ)
    (hB : 0 < B)
    (hs1 : s.previous_input = none) (hs2 : s.previous_layer_inputs = none)
    (hsrcne : s.src ≠ []) (hsrcR : ∀ row ∈ s.src, row.length = B)
    (hmemL : mem.length = s.src.length) (hmemR : ∀ m ∈ mem, m.length = B)
    (ht1R : ∀ row ∈ tgt₁, row.length = B)
    (ht2R : ∀ row ∈ tgt₂, row.length = B)
    (hlen : tgt₁.length = tgt₂.length) (hi : i < tgt₁.length)
    (hpre : tgt₁.take (i + 1) = tgt₂.take (i + 1)) :
    ∃ Y₁ st₁ a₁ Y₂ st₂ a₂,
      D.forward tgt₁ mem (.transformer s) = .ok (Y₁, st₁, a₁) ∧
      D.forward tgt₂ mem (.transformer s) = .ok (Y₂, st₂, a₂) ∧
      Y₁.getD i [] = Y₂.getD i [] := by
  obtain ⟨src, pi, pli⟩ := s
  have hpi : pi = none := hs1
  have hpli : pli = none := hs2
  subst hpi hpli
  replace hsrcne : src ≠ [] := hsrcne
  replace hsrcR : ∀ row ∈ src, row.length = B := hsrcR
  replace hmemL : mem.length = src.length := hmemL
  have htne₁ : tgt₁ ≠ [] := by intro h; rw [h] at hi; simp at hi
  have htne₂ : tgt₂ ≠ [] := by
    intro h; rw [h] at hlen; rw [List.length_nil] at hlen; omega
  have hmemne : mem ≠ [] := by
    intro h
    apply hsrcne
    rw [h] at hmemL
    rw [List.length_nil] at hmemL
    exact List.length_eq_zero.mp hmemL.symm
  have hd1t1 : dim1 tgt₁ = B := dim1_eq_of_items _ B htne₁ ht1R
  have hd1t2 : dim1 tgt₂ = B := dim1_eq_of_items _ B htne₂ ht2R
  have hd1mem : dim1 mem = B := dim1_eq_of_items _ B hmemne hmemR
  have hd1src : dim1 src = B := dim1_eq_of_items _ B hsrcne hsrcR
  have hswlen : (srcWords ⟨src, none, none⟩).length = B := by
    rw [srcWords_length]
    exact hd1src
  have c11 : dim1 tgt₁ = dim1 mem := by rw [hd1t1, hd1mem]
  have c12 : dim1 tgt₂ = dim1 mem := by rw [hd1t2, hd1mem]
  have c21 : (tgtWordsOf tgt₁).length = dim1 mem := by
    rw [tgtWordsOf_length, hd1t1, hd1mem]
  have c22 : (tgtWordsOf tgt₂).length = dim1 mem := by
    rw [tgtWordsOf_length, hd1t2, hd1mem]
  have c3 : dim1 mem = (srcWords ⟨src, none, none⟩).length := by
    rw [hd1mem, hswlen]
  have c4 : mem.length = dim1 (srcWords ⟨src, none, none⟩) := by
    rw [srcWords_dim1 ⟨src, none, none⟩ (by show 0 < dim1 src; omega)]
    exact hmemL
  refine ⟨_, _, _, _, _, _,
    forward_transformer_ok D tgt₁ mem ⟨src, none, none⟩ c11 c21 c3 c4,
    forward_transformer_ok D tgt₂ mem ⟨src, none, none⟩ c12 c22 c3 c4, ?_⟩
  have hc1 := fun b (hb : b < B) =>
    coreRun_fresh_getD D src tgt₁ mem B b hsrcne hsrcR htne₁ ht1R hmemne
      hmemR hb
  have hc2 := fun b (hb : b < B) =>
    coreRun_fresh_getD D src tgt₂ mem B b hsrcne hsrcR htne₂ ht2R hmemne
      hmemR hb
  have hlen1 : (coreRun D tgt₁ mem ⟨src, none, none⟩).1.length = B :=
    (hc1 0 hB).2.1
  have hlen2 : (coreRun D tgt₂ mem ⟨src, none, none⟩).1.length = B :=
    (hc2 0 hB).2.1
  have hit1 := (hc1 0 hB).2.2
  have hit2 := (hc2 0 hB).2.2
  have hrect1 : ∀ r ∈ tgt₁, r.length = dim1 tgt₁ := by
    intro r hr; rw [hd1t1]; exact ht1R r hr
  have hrect2 : ∀ r ∈ tgt₂, r.length = dim1 tgt₂ := by
    intro r hr; rw [hd1t2]; exact ht2R r hr
  have hpref : ∀ b, b < B →
      (stackItem (mem.map (fun r => r.getD b default))
        (some (dbItem D.word_padding_idx ((tgtWordsOf tgt₁).getD b [])))
        (some (ebItem D.word_padding_idx
          ((srcWords ⟨src, none, none⟩).getD b [])))
        D.layer_stack none
        (embItem D (tgt₁.map (fun r => r.getD b default)))).1.getD i [] =
      (stackItem (mem.map (fun r => r.getD b default))
        (some (dbItem D.word_padding_idx ((tgtWordsOf tgt₂).getD b [])))
        (some (ebItem D.word_padding_idx
          ((srcWords ⟨src, none, none⟩).getD b [])))
        D.layer_stack none
        (embItem D (tgt₂.map (fun r => r.getD b default)))).1.getD i [] := by
    intro b hb
    have hw1len : ((tgtWordsOf tgt₁).getD b []).length = tgt₁.length :=
      tgtWordsOf_row_length tgt₁ b (by rw [hd1t1]; omega)
    have hw2len : ((tgtWordsOf tgt₂).getD b []).length = tgt₂.length :=
      tgtWordsOf_row_length tgt₂ b (by rw [hd1t2]; omega)
    have hx : (embItem D (tgt₁.map (fun r => r.getD b default))).take (i + 1) =
        (embItem D (tgt₂.map (fun r => r.getD b default))).take (i + 1) := by
      rw [embItem_take, embItem_take, ← List.map_take, ← List.map_take, hpre]
    have hP := stackItem_prefix (mem.map (fun r => r.getD b default))
      (some (ebItem D.word_padding_idx
        ((srcWords ⟨src, none, none⟩).getD b [])))
      (dbItem D.word_padding_idx ((tgtWordsOf tgt₁).getD b []))
      (dbItem D.word_padding_idx ((tgtWordsOf tgt₂).getD b []))
      D.layer_stack
      (embItem D (tgt₁.map (fun r => r.getD b default)))
      (embItem D (tgt₂.map (fun r => r.getD b default)))
      (i + 1) tgt₁.length tgt₂.length
      (by rw [embItem_length, List.length_map])
      (by rw [embItem_length, List.length_map])
      (by omega) (by omega) hx
      (by
        intro q k hq hqk hk
        exact dbItem_future_ne _ _ q k (by rw [hw1len]; omega) hqk
          (by rw [hw1len]; omega))
      (by
        intro q k hq hqk hk
        exact dbItem_future_ne _ _ q k (by rw [hw2len]; omega) hqk
          (by rw [hw2len]; omega))
      (by
        intro q k hq hk
        rw [dbItem_zero_iff _ _ q k (by rw [hw1len]; omega)
            (by rw [hw1len]; omega),
          dbItem_zero_iff _ _ q k (by rw [hw2len]; omega)
            (by rw [hw2len]; omega)]
        rw [tgtWordsOf_getD_getD tgt₁ b k hrect1 (by rw [hd1t1]; omega)
            (by omega),
          tgtWordsOf_getD_getD tgt₂ b k hrect2 (by rw [hd1t2]; omega)
            (by omega)]
        rw [getD_eq_of_take_eq tgt₁ tgt₂ (i + 1) k ([] : List (List ℕ))
          (by omega) hpre])
    exact getD_eq_of_take_eq _ _ (i + 1) i ([] : Vec) (by omega) hP.1
  have hnlen1 : (normB D.layer_norm
      (coreRun D tgt₁ mem ⟨src, none, none⟩).1).length = B := by
    rw [normB_length, hlen1]
  have hnlen2 : (normB D.layer_norm
      (coreRun D tgt₂ mem ⟨src, none, none⟩).1).length = B := by
    rw [normB_length, hlen2]
  have hnne1 : normB D.layer_norm
      (coreRun D tgt₁ mem ⟨src, none, none⟩).1 ≠ [] := by
    intro h
    have := congrArg List.length h
    rw [hnlen1] at this
    simp at this
    omega
  have hnne2 : normB D.layer_norm
      (coreRun D tgt₂ mem ⟨src, none, none⟩).1 ≠ [] := by
    intro h
    have := congrArg List.length h
    rw [hnlen2] at this
    simp at this
    omega
  have hdim1n1 : dim1 (normB D.layer_norm
      (coreRun D tgt₁ mem ⟨src, none, none⟩).1) = tgt₁.length :=
    dim1_eq_of_items _ _ hnne1 (normB_item _ _ _ hit1)
  have hdim1n2 : dim1 (normB D.layer_norm
      (coreRun D tgt₂ mem ⟨src, none, none⟩).1) = tgt₂.length :=
    dim1_eq_of_items _ _ hnne2 (normB_item _ _ _ hit2)
  simp only [fwdOutputs]
  rw [transpose01_getD _ i (by rw [hdim1n1]; omega),
    transpose01_getD _ i (by rw [hdim1n2, ← hlen]; omega)]
  have key : ∀ c : List SeqT,
      (normB D.layer_norm c).map (fun r => r.getD i default) =
        c.map (fun r => (r.map D.layer_norm).getD i default) := by
    intro c
    rw [normB, List.map_map]
    rfl
  rw [key, key]
  have hpoint : ∀ b, b < B →
      (((coreRun D tgt₁ mem ⟨src, none, none⟩).1.getD b []).map
          D.layer_norm).getD i default =
      (((coreRun D tgt₂ mem ⟨src, none, none⟩).1.getD b []).map
          D.layer_norm).getD i default := by
    intro b hb
    rw [(hc1 b hb).1, (hc2 b hb).1]
    rw [getD_map_lt D.layer_norm _ i default []
      (by rw [stackItem_fst_length, embItem_length, List.length_map]; omega)]
    rw [getD_map_lt D.layer_norm _ i default []
      (by rw [stackItem_fst_length, embItem_length, List.length_map, ← hlen]
          omega)]
    rw [hpref b hb]
  have htk : ((coreRun D tgt₁ mem ⟨src, none, none⟩).1.map
        (fun r => (r.map D.layer_norm).getD i default)).take B =
      ((coreRun D tgt₂ mem ⟨src, none, none⟩).1.map
        (fun r => (r.map D.layer_norm).getD i default)).take B := by
    apply take_eq_of_getD ([] : Vec) _ _ B
      (by rw [List.length_map, hlen1]) (by rw [List.length_map, hlen2])
    intro b hb
    rw [getD_map_lt _ _ _ ([] : Vec) ([] : SeqT) (by rw [hlen1]; omega),
      getD_map_lt _ _ _ ([] : Vec) ([] : SeqT) (by rw [hlen2]; omega)]
    exact hpoint b hb
  have e1 := List.take_of_length_le (le_of_eq (by rw [List.length_map, hlen1] :
    ((coreRun D tgt₁ mem ⟨src, none, none⟩).1.map
      (fun r => (r.map D.layer_norm).getD i default)).length = B))
  have e2 := List.take_of_length_le (le_of_eq (by rw [List.length_map, hlen2] :
    ((coreRun D tgt₂ mem ⟨src, none, none⟩).1.map
      (fun r => (r.map D.layer_norm).getD i default)).length = B))
  rw [← e1, ← e2]
  exact htk

theorem C9_causal_invariance_witness :
    0 < 2 ∧
    (⟨[[[3], [3]]], none, none⟩ :
      TransformerDecoderState).previous_input = none ∧
    (⟨[[[3], [3]]], none, none⟩ :
      TransformerDecoderState).previous_layer_inputs = none ∧
    ([[[3], [3]]] : List (List (List ℕ))) ≠ [] ∧
    (∀ row ∈ ([[[3], [3]]] : List (List (List ℕ))), row.length = 2) ∧
    ([[[5], [7]]] : List SeqT).length =
      ([[[3], [3]]] : List (List (List ℕ))).length ∧
    (∀ m ∈ ([[[5], [7]]] : List SeqT), m.length = 2) ∧
    (∀ row ∈ ([[[1], [4]], [[2], [5]]] : List (List (List ℕ))),
      row.length = 2) ∧
    (∀ row ∈ ([[[1], [4]], [[9], [6]]] : List (List (List ℕ))),
      row.length = 2) ∧
    ([[[1], [4]], [[2], [5]]] : List (List (List ℕ))).length =
      ([[[1], [4]], [[9], [6]]] : List (List (List ℕ))).length ∧
    0 < ([[[1], [4]], [[2], [5]]] : List (List (List ℕ))).length ∧
    ([[[1], [4]], [[2], [5]]] : List (List (List ℕ))).take 1 =
      ([[[1], [4]], [[9], [6]]] : List (List (List ℕ))).take 1 ∧
    (∃ Y₁ st₁ a₁ Y₂ st₂ a₂,
      D0.forward [[[1], [4]], [[2], [5]]] [[[5], [7]]]
          (.transformer ⟨[[[3], [3]]], none, none⟩) = .ok (Y₁, st₁, a₁) ∧
      D0.forward [[[1], [4]], [[9], [6]]] [[[5], [7]]]
          (.transformer ⟨[[[3], [3]]], none, none⟩) = .ok (Y₂, st₂, a₂) ∧
      Y₁.getD 0 [] = Y₂.getD 0 []) :=
  ⟨by decide, rfl, rfl, by decide, by decide, by decide, by decide,
    by decide, by decide, by decide, by decide, by decide,
    C9_causal_invariance D0 ⟨[[[3], [3]]], none, none⟩
      [[[1], [4]], [[2], [5]]] [[[1], [4]], [[9], [6]]] [[[5], [7]]] 0 2
      (by decide) rfl rfl (by decide) (by decide) (by decide) (by decide)
      (by decide) (by decide) (by decide) (by decide) (by decide)⟩
